import Mathlib

/-!
Verification of the function-level IR structure of `sway-ir` (`src/sway-ir/src/function.rs`).

The source file is shallowly embedded: the arena-backed `Context` becomes a record of
lists (one arena per entity kind, handles are list indices), and every public operation
of `Function` becomes an explicit state-passing Lean function over that record.
Collaborators whose sources are not part of the repository snapshot (`Block::new`,
`Value::new_argument`, `LocalVar::new`, `Block::replace_values`, block successors)
are modelled from the specification's collaborator contracts and are marked as such
in their doc comments.
-/

namespace SwayIR

/-- Error kinds used by `Function` operations, from `IrError` as used in `function.rs`. -/
inductive IrError where
  | MissingBlock (label : String)
  | RemoveMissingBlock (label : String)
  | FunctionLocalClobbered (fnName : String) (name : String)
deriving DecidableEq, Repr

/-- Content of a `LocalVar` arena entry (`LocalVarContent`): a type and an optional
initializer constant, both opaque to this core and modelled as numbers/handles. -/
structure LocalVarContent where
  ty : Nat
  initializer : Option Nat
deriving DecidableEq, Repr

instance : Inhabited LocalVarContent := ⟨⟨0, none⟩⟩

/-- The payload of a `BlockArgument`: owning block handle, positional index,
type and by-ref flag. -/
structure BlockArg where
  block : Nat
  idx : Nat
  ty : Nat
  by_ref : Bool
deriving DecidableEq, Repr

/-- The variant part of a value: either a block-parameter (argument) value or an
instruction with a list of operand value handles (operands are all this core's
value-replacement needs). -/
inductive ValueDatum where
  | argument (arg : BlockArg)
  | instruction (operands : List Nat)
deriving DecidableEq, Repr

/-- Content of a `Value` arena entry: the datum plus optional metadata, matching the
value/metadata attachment contract consumed by `function.rs`. -/
structure ValueContent where
  content : ValueDatum
  metadata : Option Nat
deriving DecidableEq, Repr

instance : Inhabited ValueContent := ⟨⟨.instruction [], none⟩⟩

/-- Content of a `Block` arena entry.  `label`, `args` (block parameter values) and
`instructions` mirror the real `BlockContent`.  `succs` models the successor edges
as reported by the Block collaborator.

Modelled from the spec: the `Block` collaborator contract exposes
`successors(store) -> sequence of target blocks`; we store that sequence directly. -/
structure BlockContent where
  label : String
  function : Nat
  args : List Nat
  instructions : List Nat
  succs : List Nat
deriving DecidableEq, Repr

instance : Inhabited BlockContent := ⟨⟨"", 0, [], [], []⟩⟩

/-! ### A name-sorted association map, embedding Rust's `BTreeMap<String, _>`

Entries are kept strictly sorted by key, so iteration order is deterministic and
name-sorted, and `insert` returns the previous value for the key (replacing it),
exactly like `BTreeMap::insert`. -/

/-- Association-list lookup by key (first match). -/
def lookupKey {α : Type} (k : String) : List (String × α) → Option α
  | [] => none
  | (k', v) :: rest => if k = k' then some v else lookupKey k rest

/-- Insert into a key-sorted association list, returning the new list and the
value previously stored under the key (which gets replaced), if any. -/
def insertGo {α : Type} (k : String) (v : α) : List (String × α) → List (String × α) × Option α
  | [] => ([(k, v)], none)
  | (k', v') :: rest =>
    if k.data < k'.data then ((k, v) :: (k', v') :: rest, none)
    else if k = k' then ((k, v) :: rest, some v')
    else
      let r := insertGo k v rest
      ((k', v') :: r.1, r.2)

theorem lookupKey_cons {α : Type} (k k' : String) (v' : α) (rest : List (String × α)) :
    lookupKey k ((k', v') :: rest) = if k = k' then some v' else lookupKey k rest := rfl

theorem insertGo_cons {α : Type} (k : String) (v : α) (k' : String) (v' : α)
    (rest : List (String × α)) :
    insertGo k v ((k', v') :: rest) =
      if k.data < k'.data then ((k, v) :: (k', v') :: rest, none)
      else if k = k' then ((k, v) :: rest, some v')
      else ((k', v') :: (insertGo k v rest).1, (insertGo k v rest).2) := rfl

theorem insertGo_keys {α : Type} (k : String) (v : α) :
    ∀ (l : List (String × α)) (p : String × α), p ∈ (insertGo k v l).1 →
      p.1 = k ∨ p ∈ l := by
  intro l
  induction l with
  | nil =>
    intro p hp
    simp only [insertGo, List.mem_singleton] at hp
    left; rw [hp]
  | cons hd tl ih =>
    obtain ⟨k', v'⟩ := hd
    intro p hp
    rw [insertGo_cons] at hp
    by_cases h1 : k.data < k'.data
    · rw [if_pos h1] at hp
      rcases List.mem_cons.mp hp with h | h
      · left; rw [h]
      · right; exact h
    · rw [if_neg h1] at hp
      by_cases h2 : k = k'
      · rw [if_pos h2] at hp
        rcases List.mem_cons.mp hp with h | h
        · left; rw [h]
        · right; exact List.mem_cons_of_mem _ h
      · rw [if_neg h2] at hp
        rcases List.mem_cons.mp hp with h | h
        · right; rw [h]; exact List.mem_cons_self _ _
        · rcases ih p h with h' | h'
          · left; exact h'
          · right; exact List.mem_cons_of_mem _ h'

theorem insertGo_sorted {α : Type} (k : String) (v : α) :
    ∀ (l : List (String × α)),
      l.Pairwise (fun p q => p.1.data < q.1.data) →
      (insertGo k v l).1.Pairwise (fun p q => p.1.data < q.1.data) := by
  intro l
  induction l with
  | nil => intro _; simp [insertGo]
  | cons hd tl ih =>
    obtain ⟨k', v'⟩ := hd
    intro hs
    rw [List.pairwise_cons] at hs
    obtain ⟨hhd, htl⟩ := hs
    rw [insertGo_cons]
    by_cases h1 : k.data < k'.data
    · rw [if_pos h1]
      rw [List.pairwise_cons]
      constructor
      · intro p hp
        rcases List.mem_cons.mp hp with h | h
        · rw [h]; exact h1
        · exact lt_trans h1 (hhd p h)
      · rw [List.pairwise_cons]; exact ⟨hhd, htl⟩
    · rw [if_neg h1]
      by_cases h2 : k = k'
      · rw [if_pos h2]
        rw [List.pairwise_cons]
        refine ⟨fun p hp => ?_, htl⟩
        rw [h2]; exact hhd p hp
      · rw [if_neg h2]
        rw [List.pairwise_cons]
        constructor
        · intro p hp
          rcases insertGo_keys k v tl p hp with h | h
          · rw [h]
            rcases lt_trichotomy k.data k'.data with h' | h' | h'
            · exact absurd h' h1
            · exact absurd (String.ext h') h2
            · exact h'
          · exact hhd p h
        · exact ih htl

theorem lookupKey_eq_none_of_lt {α : Type} (k : String) :
    ∀ (l : List (String × α)), l.Pairwise (fun p q => p.1.data < q.1.data) →
      (∀ p ∈ l, k.data < p.1.data) → lookupKey k l = none := by
  intro l
  induction l with
  | nil => intro _ _; rfl
  | cons hd tl ih =>
    obtain ⟨k', v'⟩ := hd
    intro hs hlt
    rw [List.pairwise_cons] at hs
    have hk : k ≠ k' := by
      intro he
      subst he
      exact lt_irrefl _ (hlt (k, v') (List.mem_cons_self _ _))
    rw [lookupKey_cons, if_neg hk]
    exact ih hs.2 (fun p hp => hlt p (List.mem_cons_of_mem _ hp))

theorem insertGo_old {α : Type} (k : String) (v : α) :
    ∀ (l : List (String × α)), l.Pairwise (fun p q => p.1.data < q.1.data) →
      (insertGo k v l).2 = lookupKey k l := by
  intro l
  induction l with
  | nil => intro _; rfl
  | cons hd tl ih =>
    obtain ⟨k', v'⟩ := hd
    intro hs
    rw [List.pairwise_cons] at hs
    rw [insertGo_cons, lookupKey_cons]
    by_cases h1 : k.data < k'.data
    · have hk : k ≠ k' := by
        intro he
        subst he
        exact lt_irrefl _ h1
      rw [if_pos h1, if_neg hk]
      exact (lookupKey_eq_none_of_lt k tl hs.2
        (fun p hp => lt_trans h1 (hs.1 p hp))).symm
    · rw [if_neg h1]
      by_cases h2 : k = k'
      · rw [if_pos h2, if_pos h2]
      · rw [if_neg h2, if_neg h2]
        exact ih hs.2

theorem lookupKey_insertGo_self {α : Type} (k : String) (v : α) :
    ∀ (l : List (String × α)), lookupKey k (insertGo k v l).1 = some v := by
  intro l
  induction l with
  | nil => simp [insertGo, lookupKey]
  | cons hd tl ih =>
    obtain ⟨k', v'⟩ := hd
    rw [insertGo_cons]
    by_cases h1 : k.data < k'.data
    · rw [if_pos h1, lookupKey_cons, if_pos rfl]
    · rw [if_neg h1]
      by_cases h2 : k = k'
      · rw [if_pos h2, lookupKey_cons, if_pos rfl]
      · rw [if_neg h2, lookupKey_cons, if_neg h2]
        exact ih

theorem lookupKey_insertGo_ne {α : Type} (k k2 : String) (v : α) (hne : k2 ≠ k) :
    ∀ (l : List (String × α)), lookupKey k2 (insertGo k v l).1 = lookupKey k2 l := by
  intro l
  induction l with
  | nil =>
    simp only [insertGo, lookupKey]
    rw [if_neg hne]
  | cons hd tl ih =>
    obtain ⟨k', v'⟩ := hd
    rw [insertGo_cons]
    by_cases h1 : k.data < k'.data
    · rw [if_pos h1, lookupKey_cons, if_neg hne, lookupKey_cons]
    · rw [if_neg h1]
      by_cases h2 : k = k'
      · rw [if_pos h2, lookupKey_cons, if_neg hne, lookupKey_cons]
        rw [← h2, if_neg hne]
      · rw [if_neg h2, lookupKey_cons, lookupKey_cons]
        by_cases h3 : k2 = k'
        · rw [if_pos h3, if_pos h3]
        · rw [if_neg h3, if_neg h3]
          exact ih

/-- The name-keyed local-variable table: a strictly name-sorted association list,
embedding `BTreeMap<String, LocalVar>`. -/
structure SMap (α : Type) where
  entries : List (String × α)
  sorted : entries.Pairwise (fun p q => p.1.data < q.1.data)

/-- The empty table. -/
def SMap.empty {α : Type} : SMap α := ⟨[], List.Pairwise.nil⟩

/-- Lookup, i.e. `BTreeMap::get`. -/
def SMap.get {α : Type} (m : SMap α) (k : String) : Option α := lookupKey k m.entries

/-- Insert, i.e. `BTreeMap::insert`: stores `v` under `k` (replacing any previous
value) and returns the previous value, if any. -/
def SMap.insert {α : Type} (m : SMap α) (k : String) (v : α) : SMap α × Option α :=
  let r := insertGo k v m.entries
  (⟨r.1, insertGo_sorted k v m.entries m.sorted⟩, r.2)

/-- Key membership, i.e. `BTreeMap::contains_key`. -/
def SMap.contains {α : Type} (m : SMap α) (k : String) : Bool := (m.get k).isSome

theorem SMap.insert_old {α : Type} (m : SMap α) (k : String) (v : α) :
    (m.insert k v).2 = m.get k :=
  insertGo_old k v m.entries m.sorted

theorem SMap.get_insert_self {α : Type} (m : SMap α) (k : String) (v : α) :
    (m.insert k v).1.get k = some v :=
  lookupKey_insertGo_self k v m.entries

theorem SMap.get_insert_ne {α : Type} (m : SMap α) (k k2 : String) (v : α) (h : k2 ≠ k) :
    (m.insert k v).1.get k2 = m.get k2 :=
  lookupKey_insertGo_ne k k2 v h m.entries

theorem lookupKey_mem {α : Type} (k : String) (v : α) :
    ∀ (l : List (String × α)), lookupKey k l = some v → (k, v) ∈ l := by
  intro l
  induction l with
  | nil => intro h; exact absurd h (by simp [lookupKey])
  | cons hd tl ih =>
    obtain ⟨k', v'⟩ := hd
    intro h
    rw [lookupKey_cons] at h
    by_cases hk : k = k'
    · rw [if_pos hk] at h
      injection h with h'
      subst hk
      subst h'
      exact List.mem_cons_self _ _
    · rw [if_neg hk] at h
      exact List.mem_cons_of_mem _ (ih h)

theorem mem_lookupKey {α : Type} (k : String) (v : α) :
    ∀ (l : List (String × α)), l.Pairwise (fun p q => p.1.data < q.1.data) →
      (k, v) ∈ l → lookupKey k l = some v := by
  intro l
  induction l with
  | nil => intro _ h; exact absurd h (by simp)
  | cons hd tl ih =>
    obtain ⟨k', v'⟩ := hd
    intro hs h
    rw [List.pairwise_cons] at hs
    rw [lookupKey_cons]
    rcases List.mem_cons.mp h with h' | h'
    · obtain ⟨h1, h2⟩ := Prod.mk.injEq .. ▸ h'
      rw [if_pos h1, h2]
    · have hk : k ≠ k' := by
        intro hkk
        have := hs.1 (k, v) h'
        rw [hkk] at this
        exact lt_irrefl _ this
      rw [if_neg hk]
      exact ih hs.2 h'

theorem SMap.get_mem_entries {α : Type} (m : SMap α) (k : String) (v : α)
    (h : m.get k = some v) : (k, v) ∈ m.entries :=
  lookupKey_mem k v m.entries h

theorem SMap.mem_entries_get {α : Type} (m : SMap α) (k : String) (v : α)
    (h : (k, v) ∈ m.entries) : m.get k = some v :=
  mem_lookupKey k v m.entries m.sorted h

end SwayIR

namespace SwayIR

/-! ### Decimal rendering of naturals

`format!("{idx}")` on a `u64` renders the decimal digits; in Lean this is `Nat.repr`.
We characterise `Nat.repr` by a structurally simple recursion `decChars` and derive
the facts the label-uniqueness arguments need: the rendering is never empty, is
injective, and its length is monotone in the value. -/

/-- The decimal digit characters of `n`, most significant first. -/
def decChars (n : Nat) : List Char :=
  if n / 10 = 0 then [Nat.digitChar (n % 10)]
  else decChars (n / 10) ++ [Nat.digitChar (n % 10)]
decreasing_by
  exact Nat.div_lt_self (Nat.pos_of_ne_zero (by omega)) (by norm_num)

theorem decChars_eq (n : Nat) :
    decChars n = if n / 10 = 0 then [Nat.digitChar (n % 10)]
      else decChars (n / 10) ++ [Nat.digitChar (n % 10)] := by
  rw [decChars]

theorem toDigitsCore_eq_decChars (fuel : Nat) :
    ∀ (n : Nat) (ds : List Char), n < fuel →
      Nat.toDigitsCore 10 fuel n ds = decChars n ++ ds := by
  induction fuel with
  | zero => intro n ds h; omega
  | succ f ih =>
    intro n ds h
    rw [Nat.toDigitsCore]
    by_cases h0 : n / 10 = 0
    · rw [if_pos h0, decChars_eq n, if_pos h0, List.singleton_append]
    · have hlt : n / 10 < n := Nat.div_lt_self (Nat.pos_of_ne_zero (by omega)) (by norm_num)
      rw [if_neg h0, ih (n / 10) _ (by omega), decChars_eq n, if_neg h0,
        List.append_assoc, List.singleton_append]

theorem repr_eq_decChars (n : Nat) : Nat.repr n = (decChars n).asString := by
  show (Nat.toDigits 10 n).asString = (decChars n).asString
  rw [Nat.toDigits, toDigitsCore_eq_decChars (n + 1) n [] (Nat.lt_succ_self n),
    List.append_nil]

theorem decChars_length_pos (n : Nat) : 1 ≤ (decChars n).length := by
  rw [decChars]
  by_cases h : n / 10 = 0
  · rw [if_pos h]; simp
  · rw [if_neg h]; simp

theorem decChars_length_mono (n : Nat) : ∀ (m : Nat), m ≤ n →
    (decChars m).length ≤ (decChars n).length := by
  induction n using Nat.strong_induction_on with
  | _ n ih =>
    intro m h
    by_cases hn : n / 10 = 0
    · have hn' : n < 10 := (Nat.div_eq_zero_iff (by norm_num)).mp hn
      have hm : m / 10 = 0 := (Nat.div_eq_zero_iff (by norm_num)).mpr (by omega)
      rw [decChars_eq m, if_pos hm, decChars_eq n, if_pos hn]
      simp
    · rw [decChars_eq n, if_neg hn]
      by_cases hm : m / 10 = 0
      · rw [decChars_eq m, if_pos hm]
        have := decChars_length_pos (n / 10)
        simp only [List.length_append, List.length_singleton]
        omega
      · rw [decChars_eq m, if_neg hm]
        have hlt : n / 10 < n := Nat.div_lt_self (Nat.pos_of_ne_zero (by omega)) (by norm_num)
        have hrec := ih (n / 10) hlt (m / 10) (Nat.div_le_div_right h)
        simp only [List.length_append, List.length_singleton]
        omega

theorem digitChar_inj_lt : ∀ a < 10, ∀ b < 10, Nat.digitChar a = Nat.digitChar b → a = b := by
  decide

theorem append_singleton_inj {α : Type} {xs ys : List α} {x y : α}
    (h : xs ++ [x] = ys ++ [y]) : xs = ys ∧ x = y := by
  have h' := congrArg List.reverse h
  simp only [List.reverse_append, List.reverse_singleton, List.singleton_append] at h'
  injection h' with h1 h2
  exact ⟨List.reverse_inj.mp h2, h1⟩

theorem decChars_inj (n : Nat) : ∀ (m : Nat), decChars m = decChars n → m = n := by
  induction n using Nat.strong_induction_on with
  | _ n ih =>
    intro m h
    by_cases hn : n / 10 = 0 <;> by_cases hm : m / 10 = 0
    · rw [decChars_eq m, if_pos hm, decChars_eq n, if_pos hn] at h
      injection h with h1 _
      have := digitChar_inj_lt (m % 10) (Nat.mod_lt _ (by norm_num)) (n % 10)
        (Nat.mod_lt _ (by norm_num)) h1
      omega
    · rw [decChars_eq m, if_neg hm, decChars_eq n, if_pos hn] at h
      have hl := congrArg List.length h
      have := decChars_length_pos (m / 10)
      simp only [List.length_append, List.length_singleton] at hl
      omega
    · rw [decChars_eq m, if_pos hm, decChars_eq n, if_neg hn] at h
      have hl := congrArg List.length h
      have := decChars_length_pos (n / 10)
      simp only [List.length_append, List.length_singleton] at hl
      omega
    · rw [decChars_eq m, if_neg hm, decChars_eq n, if_neg hn] at h
      obtain ⟨h1, h2⟩ := append_singleton_inj h
      have hlt : n / 10 < n := Nat.div_lt_self (Nat.pos_of_ne_zero (by omega)) (by norm_num)
      have hdiv := ih (n / 10) hlt (m / 10) h1
      have hmod := digitChar_inj_lt (m % 10) (Nat.mod_lt _ (by norm_num)) (n % 10)
        (Nat.mod_lt _ (by norm_num)) h2
      omega

theorem repr_length_pos (n : Nat) : 1 ≤ (Nat.repr n).length := by
  rw [repr_eq_decChars, List.length_asString]
  exact decChars_length_pos n

theorem repr_length_mono (m n : Nat) (h : m ≤ n) :
    (Nat.repr m).length ≤ (Nat.repr n).length := by
  rw [repr_eq_decChars, repr_eq_decChars, List.length_asString, List.length_asString]
  exact decChars_length_mono n m h

theorem repr_inj (m n : Nat) (h : Nat.repr m = Nat.repr n) : m = n := by
  rw [repr_eq_decChars, repr_eq_decChars] at h
  exact decChars_inj n m (List.asString_inj.mp h)

theorem string_append_cancel_left (a b c : String) (h : a ++ b = a ++ c) : b = c := by
  apply String.ext
  have := congrArg String.data h
  rw [String.data_append, String.data_append] at this
  exact List.append_cancel_left this

end SwayIR

namespace SwayIR

/-! ### The context: one arena per entity kind

Handles are indices into the arena lists; like generational-arena handles they are
stable for the store's lifetime (nothing is ever removed from an arena, only from
a function's own lists). -/

/-- Content of a `Function` arena entry, mirroring `FunctionContent` field by field. -/
structure FunctionContent where
  name : String
  arguments : List (String × Nat)
  return_type : Nat
  blocks : List Nat
  is_public : Bool
  is_entry : Bool
  selector : Option Nat
  metadata : Option Nat
  local_storage : SMap Nat
  next_label_idx : Nat

instance : Inhabited FunctionContent :=
  ⟨⟨"", [], 0, [], false, false, none, none, SMap.empty, 0⟩⟩

/-- Content of a `Module` arena entry: the ordered collection of function handles. -/
structure ModuleContent where
  functions : List Nat

instance : Inhabited ModuleContent := ⟨⟨[]⟩⟩

/-- The shared store (`Context`): one arena per entity kind. -/
structure Context where
  functions : List FunctionContent
  blocks : List BlockContent
  values : List ValueContent
  local_vars : List LocalVarContent
  modules : List ModuleContent

/-- Resolve a function handle (`context.functions[f]`). -/
def Context.fnOf (ctx : Context) (f : Nat) : FunctionContent :=
  ctx.functions.getD f default

/-- Resolve a block handle (`context.blocks[b]`). -/
def Context.blkOf (ctx : Context) (b : Nat) : BlockContent :=
  ctx.blocks.getD b default

/-- Resolve a value handle (`context.values[v]`). -/
def Context.valOf (ctx : Context) (v : Nat) : ValueContent :=
  ctx.values.getD v default

/-- Mutate the function content under a handle (`context.functions.get_mut(f)`). -/
def Context.modifyFn (ctx : Context) (f : Nat) (g : FunctionContent → FunctionContent) :
    Context :=
  { ctx with functions := ctx.functions.set f (g (ctx.fnOf f)) }

/-- Mutate the block content under a handle (`context.blocks.get_mut(b)`). -/
def Context.modifyBlk (ctx : Context) (b : Nat) (g : BlockContent → BlockContent) :
    Context :=
  { ctx with blocks := ctx.blocks.set b (g (ctx.blkOf b)) }

/-- Mutate the value content under a handle (`context.values.get_mut(v)`). -/
def Context.modifyVal (ctx : Context) (v : Nat) (g : ValueContent → ValueContent) :
    Context :=
  { ctx with values := ctx.values.set v (g (ctx.valOf v)) }

/-! ### Unique label generation (`Function::get_unique_label` / `get_next_label_idx`) -/

/-- The labels of the blocks currently in function `f`'s block list. -/
def labelsOf (ctx : Context) (f : Nat) : List String :=
  (ctx.fnOf f).blocks.map (fun b => (ctx.blkOf b).label)

/-- Length of the longest label in a list (used only as a termination measure). -/
def maxLen (labels : List String) : Nat :=
  labels.foldr (fun s m => max s.length m) 0

theorem le_maxLen {labels : List String} {s : String} (h : s ∈ labels) :
    s.length ≤ maxLen labels := by
  induction labels with
  | nil => exact absurd h (by simp)
  | cons hd tl ih =>
    show s.length ≤ max hd.length (maxLen tl)
    rcases List.mem_cons.mp h with h | h
    · rw [h]; exact le_max_left _ _
    · exact le_trans (ih h) (le_max_right _ _)

/-- The hinted-collision loop of `get_unique_label`: while the hint collides with a
current block label, draw the next counter value and append its decimal rendering to
the hint; return the first non-colliding hint together with the advanced counter. -/
def uniqueLabelGo (labels : List String) (counter : Nat) (hint : String) : String × Nat :=
  if hint ∈ labels then
    uniqueLabelGo labels (counter + 1) (hint ++ Nat.repr counter)
  else (hint, counter)
termination_by maxLen labels + 1 - hint.length
decreasing_by
  have h1 : hint.length ≤ maxLen labels := le_maxLen (by assumption)
  have h2 : 1 ≤ (Nat.repr counter).length := repr_length_pos counter
  rw [String.length_append]
  omega

/-- `Function::get_unique_label`.  With no hint, seeds the hint with
`"block" + counter` (advancing the function's private counter); a colliding hint
gets successive counter values appended until it is unique.  Returns the updated
context (the counter write-back) and the label. -/
def get_unique_label (ctx : Context) (f : Nat) (hint : Option String) : Context × String :=
  let fc := ctx.fnOf f
  let r := match hint with
    | some h => uniqueLabelGo (labelsOf ctx f) fc.next_label_idx h
    | none =>
      uniqueLabelGo (labelsOf ctx f) (fc.next_label_idx + 1)
        ("block" ++ Nat.repr fc.next_label_idx)
  (ctx.modifyFn f (fun fc => { fc with next_label_idx := r.2 }), r.1)

/-! ### Block creation and removal -/

/-- Modelled from the spec: `Block::new` (block.rs is not under src/).  Allocates a
fresh block content in the store, owned by `f`, with no parameters, instructions or
successors, freshly labeled through the owning function's `get_unique_label` with
the given hint (spec sections 4.2/4.3 and the Block collaborator contract).  Does
not touch any function's block list. -/
def Block.new (ctx : Context) (f : Nat) (label : Option String) : Context × Nat :=
  let r := get_unique_label ctx f label
  ({ r.1 with blocks := r.1.blocks ++ [⟨r.2, f, [], [], []⟩] }, r.1.blocks.length)

/-- `Function::create_block`: create a block and append it to this function's list. -/
def create_block (ctx : Context) (f : Nat) (label : Option String) : Context × Nat :=
  let r := Block.new ctx f label
  (r.1.modifyFn f (fun fc => { fc with blocks := fc.blocks ++ [r.2] }), r.2)

/-- `Function::create_block_before`: create a block first, then locate `other` in
this function's block list and insert the new block immediately before it; if
`other` is not found, fail with `MissingBlock` carrying `other`'s label (the new
block stays allocated but unreferenced). -/
def create_block_before (ctx : Context) (f : Nat) (other : Nat) (label : Option String) :
    Context × Except IrError Nat :=
  let r := Block.new ctx f label
  match (r.1.fnOf f).blocks.findIdx? (fun b => b == other) with
  | some idx =>
    (r.1.modifyFn f (fun fc => { fc with blocks := fc.blocks.insertIdx idx r.2 }),
      Except.ok r.2)
  | none => (r.1, Except.error (IrError.MissingBlock (r.1.blkOf other).label))

/-- `Function::create_block_after`: like `create_block_before` but inserts at the
position immediately after `other`. -/
def create_block_after (ctx : Context) (f : Nat) (other : Nat) (label : Option String) :
    Context × Except IrError Nat :=
  let r := Block.new ctx f label
  match (r.1.fnOf f).blocks.findIdx? (fun b => b == other) with
  | some idx =>
    (r.1.modifyFn f (fun fc => { fc with blocks := fc.blocks.insertIdx (idx + 1) r.2 }),
      Except.ok r.2)
  | none => (r.1, Except.error (IrError.MissingBlock (r.1.blkOf other).label))

/-- `Function::remove_block`: remove a block (by handle identity) from this
function's block list, failing with `RemoveMissingBlock` (carrying the block's
label) when it is not in the list. -/
def remove_block (ctx : Context) (f : Nat) (block : Nat) : Context × Except IrError Unit :=
  let label := (ctx.blkOf block).label
  match (ctx.fnOf f).blocks.findIdx? (fun b => b == block) with
  | none => (ctx, Except.error (IrError.RemoveMissingBlock label))
  | some idx =>
    (ctx.modifyFn f (fun fc => { fc with blocks := fc.blocks.eraseIdx idx }),
      Except.ok ())

/-! ### Local-variable table operations -/

/-- Modelled from the spec: `LocalVar::new` (local_var.rs is not under src/):
allocates a local-variable entity with the given type and optional initializer in
the store and returns its fresh handle (the LocalVar collaborator contract). -/
def LocalVar.new (ctx : Context) (ty : Nat) (init : Option Nat) : Context × Nat :=
  ({ ctx with local_vars := ctx.local_vars ++ [⟨ty, init⟩] }, ctx.local_vars.length)

/-- `Function::new_local_var`: allocate a local variable, then insert it into the
name-keyed table.  When the name was already bound, the insert still replaces the
binding (BTreeMap semantics) and the call reports `FunctionLocalClobbered` with the
function's name and the colliding name. -/
def new_local_var (ctx : Context) (f : Nat) (name : String) (ty : Nat)
    (init : Option Nat) : Context × Except IrError Nat :=
  let rv := LocalVar.new ctx ty init
  let fc := rv.1.fnOf f
  let ri := fc.local_storage.insert name rv.2
  let ctx2 := rv.1.modifyFn f (fun fc => { fc with local_storage := ri.1 })
  (ctx2,
    match ri.2 with
    | some _ => Except.error (IrError.FunctionLocalClobbered fc.name name)
    | none => Except.ok rv.2)

theorem exists_free_name (m : SMap Nat) (name : String) :
    ∃ n : Nat, m.get (name ++ Nat.repr n) = none := by
  by_contra hall
  push_neg at hall
  have hmem : ∀ n : Nat, (name ++ Nat.repr n) ∈ m.entries.map Prod.fst := by
    intro n
    obtain ⟨v, hv⟩ := Option.ne_none_iff_exists'.mp (hall n)
    exact List.mem_map.mpr ⟨(name ++ Nat.repr n, v), SMap.get_mem_entries m _ v hv, rfl⟩
  have hmapsto : ∀ n ∈ Finset.range (m.entries.length + 1),
      (name ++ Nat.repr n) ∈ (m.entries.map Prod.fst).toFinset := by
    intro n _
    exact List.mem_toFinset.mpr (hmem n)
  have hcard : ((m.entries.map Prod.fst).toFinset).card <
      (Finset.range (m.entries.length + 1)).card := by
    have h1 := List.toFinset_card_le (m.entries.map Prod.fst)
    rw [Finset.card_range]
    simp only [List.length_map] at h1
    omega
  obtain ⟨a, _, b, _, hab, heq⟩ :=
    Finset.exists_ne_map_eq_of_card_lt_of_maps_to hcard hmapsto
  exact hab (repr_inj a b (string_append_cancel_left name _ _ heq))

/-- The first index `n` (from 0 upward) whose candidate `name ++ n` is not a key of
the table: the `(0..).find_map` probe of `new_unique_local_var`. -/
def freeNameIdx (m : SMap Nat) (name : String) : Nat :=
  Nat.find (exists_free_name m name)

/-- The name actually used by `new_unique_local_var`: the hint itself when free,
otherwise the first free candidate `name ++ n`. -/
def chooseUniqueName (m : SMap Nat) (name : String) : String :=
  if m.contains name then name ++ Nat.repr (freeNameIdx m name) else name

/-- `Function::new_unique_local_var`: rename via the probing scheme if needed, then
insert through `new_local_var`; the trailing `.unwrap()` cannot panic because the
chosen name is free (`new_unique_local_var_spec` below), which the error branch
here reflects by being unreachable. -/
def new_unique_local_var (ctx : Context) (f : Nat) (name : String) (ty : Nat)
    (init : Option Nat) : Context × Nat :=
  let new_name := chooseUniqueName (ctx.fnOf f).local_storage name
  let r := new_local_var ctx f new_name ty init
  (r.1,
    match r.2 with
    | Except.ok v => v
    | Except.error _ => 0)

/-! ### Merging locals from another function -/

/-- Unordered handle map with `HashMap::insert` lookup semantics (latest binding
wins), used for the returned old-to-new local-variable mapping. -/
def hget (m : List (Nat × Nat)) (k : Nat) : Option Nat :=
  match m with
  | [] => none
  | (k', v) :: rest => if k = k' then some v else hget rest k

/-- The loop body of `merge_locals_from`: for each snapshotted (name, handle,
content) triple of the other function, create a uniquely named local in this
function and record old-to-new in the map. -/
def mergeGo (f : Nat) : Context → List (String × Nat × LocalVarContent) →
    List (Nat × Nat) → Context × List (Nat × Nat)
  | ctx, [], vm => (ctx, vm)
  | ctx, (name, old, content) :: rest, vm =>
    let r := new_unique_local_var ctx f name content.ty content.initializer
    mergeGo f r.1 rest ((old, r.2) :: vm)

/-- `Function::merge_locals_from`: snapshot the other function's (name, handle,
content) triples, then insert each into this function via `new_unique_local_var`,
returning the map from original to newly created handles. -/
def merge_locals_from (ctx : Context) (f other : Nat) : Context × List (Nat × Nat) :=
  let old_vars := (ctx.fnOf other).local_storage.entries.map
    (fun p => (p.1, p.2, ctx.local_vars.getD p.2 default))
  mergeGo f ctx old_vars []

end SwayIR

namespace SwayIR

/-! ### Construction (`Function::new`) -/

/-- Modelled from the spec: `Value::new_argument` composed with `add_metadatum`
(value.rs is not under src/): allocates a block-parameter value with the given
payload and optional metadata in the store, returning its fresh handle. -/
def Value.new_argument (ctx : Context) (arg : BlockArg) (md : Option Nat) :
    Context × Nat :=
  ({ ctx with values := ctx.values ++ [⟨ValueDatum.argument arg, md⟩] }, ctx.values.length)

/-- The enumerated argument-synthesis loop of `Function::new`: for the i-th
argument tuple, create a block-parameter value of the entry block with positional
index i, collecting the (name, value) pairs in order. -/
def synthArgs (entryB : Nat) : Context → List (String × Nat × Bool × Option Nat) →
    Nat → Context × List (String × Nat)
  | ctx, [], _ => (ctx, [])
  | ctx, (nm, ty, byref, md) :: rest, idx =>
    let rv := Value.new_argument ctx ⟨entryB, idx, ty, byref⟩ md
    let rr := synthArgs entryB rv.1 rest (idx + 1)
    (rr.1, (nm, rv.2) :: rr.2)

/-- `Function::new`: allocate the function content, register it with the module,
create and append the entry block (labeled "entry"), synthesize the argument
values as entry-block parameters, and install them both as the function's argument
list and as the entry block's parameter list. -/
def Function.new (ctx : Context) (module : Nat) (name : String)
    (args : List (String × Nat × Bool × Option Nat)) (return_type : Nat)
    (selector : Option Nat) (is_public is_entry : Bool) (metadata : Option Nat) :
    Context × Nat :=
  let content : FunctionContent :=
    ⟨name, [], return_type, [], is_public, is_entry, selector, metadata, SMap.empty, 0⟩
  let func := ctx.functions.length
  let ctx1 : Context := { ctx with functions := ctx.functions ++ [content] }
  let ctx2 : Context := { ctx1 with
    modules := ctx1.modules.set module
      ⟨(ctx1.modules.getD module default).functions ++ [func]⟩ }
  let rb := Block.new ctx2 func (some ("entry"))
  let ctx3 := rb.1.modifyFn func (fun fc => { fc with blocks := fc.blocks ++ [rb.2] })
  let ra := synthArgs rb.2 ctx3 args 0
  let ctx4 := ra.1.modifyFn func (fun fc => { fc with arguments := ra.2 })
  let ctx5 := ctx4.modifyBlk rb.2 (fun bc => { bc with args := ra.2.map Prod.snd })
  (ctx5, func)

/-! ### Simple accessors -/

/-- `Function::num_blocks`. -/
def num_blocks (ctx : Context) (f : Nat) : Nat := (ctx.fnOf f).blocks.length

/-- `Function::get_entry_block`: the first block of the function. -/
def get_entry_block (ctx : Context) (f : Nat) : Nat := (ctx.fnOf f).blocks.getD 0 0

/-- `Function::num_args`. -/
def num_args (ctx : Context) (f : Nat) : Nat := (ctx.fnOf f).arguments.length

/-- `Function::get_arg`: find an argument value by name (first match). -/
def get_arg (ctx : Context) (f : Nat) (name : String) : Option Nat :=
  (ctx.fnOf f).arguments.findSome? (fun p => if p.1 = name then some p.2 else none)

/-- `Function::get_local_var`: look a local variable up by name. -/
def get_local_var (ctx : Context) (f : Nat) (name : String) : Option Nat :=
  (ctx.fnOf f).local_storage.get name

/-! ### Value replacement -/

/-- Replace one use: `map.get(old).unwrap_or(old)`. -/
def replaceOperand (m : List (Nat × Nat)) (v : Nat) : Nat := (hget m v).getD v

/-- Modelled from the spec: `Block::replace_values` (block.rs is not under src/):
rewrites every use of each old value with its replacement across every instruction
of the block (the Block collaborator contract, spec sections 4.5/6). -/
def Block.replace_values (ctx : Context) (b : Nat) (m : List (Nat × Nat)) : Context :=
  (ctx.blkOf b).instructions.foldl
    (fun c v => c.modifyVal v (fun vc =>
      match vc.content with
      | ValueDatum.instruction ops =>
        { vc with content := ValueDatum.instruction (ops.map (replaceOperand m)) }
      | ValueDatum.argument _ => vc)) ctx

/-- `Function::replace_values`: iterate this function's blocks, optionally first
skipping ahead (with a peeking skip loop) until the starting block is at the head,
and apply `Block::replace_values` to each remaining block. -/
def replace_values (ctx : Context) (f : Nat) (m : List (Nat × Nat))
    (starting_block : Option Nat) : Context :=
  let blocks := (ctx.fnOf f).blocks
  let rest := match starting_block with
    | some sb => blocks.dropWhile (fun b => !(b == sb))
    | none => blocks
  rest.foldl (fun c b => Block.replace_values c b m) ctx

/-- `Function::replace_value`: singleton-map convenience wrapper. -/
def replace_value (ctx : Context) (f : Nat) (old_val new_val : Nat)
    (starting_block : Option Nat) : Context :=
  replace_values ctx f [(old_val, new_val)] starting_block

/-! ### Control-flow discovery (`Function::dot_cfg`) -/

/-- The successors of a block as reported by the Block collaborator. -/
def blockSuccs (ctx : Context) (b : Nat) : List Nat := (ctx.blkOf b).succs

/-- All successor handles appearing anywhere in the store (a finite universe used
for the traversal's termination measure and invariants). -/
def allSuccs (ctx : Context) : List Nat :=
  ctx.blocks.foldr (fun bc acc => bc.succs ++ acc) []

/-- The finite universe every traversal-worklist entry lives in. -/
def succUniverse (ctx : Context) (entry : Nat) : Finset Nat :=
  insert entry (allSuccs ctx).toFinset

theorem mem_foldr_succs {l : List BlockContent} {bc : BlockContent} (hbc : bc ∈ l)
    {s : Nat} (hs : s ∈ bc.succs) :
    s ∈ l.foldr (fun bc acc => bc.succs ++ acc) [] := by
  induction l with
  | nil => exact absurd hbc (by simp)
  | cons hd tl ih =>
    simp only [List.foldr_cons, List.mem_append]
    rcases List.mem_cons.mp hbc with h | h
    · left; rw [← h]; exact hs
    · right; exact ih h

theorem blockSuccs_subset_universe (ctx : Context) (entry b : Nat) :
    ∀ s ∈ blockSuccs ctx b, s ∈ succUniverse ctx entry := by
  intro s hs
  apply Finset.mem_insert_of_mem
  apply List.mem_toFinset.mpr
  unfold blockSuccs Context.blkOf at hs
  by_cases hb : b < ctx.blocks.length
  · rw [List.getD_eq_getElem ctx.blocks default hb] at hs
    exact mem_foldr_succs (ctx.blocks.getElem_mem hb) hs
  · rw [List.getD_eq_default ctx.blocks default (by omega)] at hs
    exact absurd hs (by simp [default])

/-- The work-list loop of `dot_cfg`.  Each step pops a block, marks it visited,
emits one edge per successor (in order, before the visited check), and pushes the
successors that are not yet visited.  Returns the emitted edges in emission order
together with the final visited set. -/
def cfgLoop (ctx : Context) (entry : Nat) :
    (worklist : List Nat) → (visited : Finset Nat) →
    (∀ b ∈ worklist, b ∈ succUniverse ctx entry) → List (Nat × Nat) × Finset Nat
  | [], visited, _ => ([], visited)
  | n :: rest, visited, hw =>
    let visited' := insert n visited
    let pushed := (blockSuccs ctx n).filter (fun s => decide (s ∉ visited'))
    let r := cfgLoop ctx entry (pushed.reverse ++ rest) visited'
      (by
        intro b hb
        rcases List.mem_append.mp hb with h | h
        · exact blockSuccs_subset_universe ctx entry n b
            (List.mem_of_mem_filter (List.mem_reverse.mp h))
        · exact hw b (List.mem_cons_of_mem _ h))
    ((blockSuccs ctx n).map (fun s => (n, s)) ++ r.1, r.2)
termination_by worklist visited _ =>
  ((succUniverse ctx entry \ visited).card,
    worklist.countP (fun b => decide (b ∈ visited)))
decreasing_by
  by_cases hn : n ∈ visited
  · have hv : insert n visited = visited := Finset.insert_eq_self.mpr hn
    rw [Prod.lex_iff]
    right
    constructor
    · simp only [hv]
    · simp only [hv, List.countP_append, List.countP_cons]
      have hz : ((blockSuccs ctx n).filter
          (fun s => decide (s ∉ visited))).reverse.countP
          (fun b => decide (b ∈ visited)) = 0 := by
        rw [List.countP_eq_zero]
        intro a ha
        have := List.of_mem_filter (List.mem_reverse.mp ha)
        simp only [decide_eq_true_eq] at this ⊢
        exact this
      rw [hz]
      simp only [decide_eq_true_eq, hn, if_pos]
      omega
  · apply Prod.Lex.left
    apply Finset.card_lt_card
    have hsub : succUniverse ctx entry \ insert n visited ⊆
        succUniverse ctx entry \ visited :=
      Finset.sdiff_subset_sdiff (Finset.Subset.refl _) (Finset.subset_insert n visited)
    rw [Finset.ssubset_iff_of_subset hsub]
    refine ⟨n, Finset.mem_sdiff.mpr ⟨hw n (List.mem_cons_self _ _), hn⟩, ?_⟩
    simp

/-- The edges emitted by `dot_cfg`'s traversal, in emission order. -/
def cfgEdges (ctx : Context) (f : Nat) : List (Nat × Nat) :=
  (cfgLoop ctx (get_entry_block ctx f) [get_entry_block ctx f] ∅
    (by
      intro b hb
      rw [List.mem_singleton] at hb
      rw [hb]
      exact Finset.mem_insert_self _ _)).1

/-- One rendered edge line: `writeln!(res, "\t{} -> {}\n", ...)` emits the
tab-indented arrow line followed by a blank line. -/
def edgeLine (ctx : Context) (e : Nat × Nat) : String :=
  "\t" ++ (ctx.blkOf e.1).label ++ " -> " ++ (ctx.blkOf e.2).label ++ "\n" ++ "\n"

/-- Concatenate the rendered edge lines in emission order. -/
def renderEdges (ctx : Context) : List (Nat × Nat) → String
  | [] => ""
  | e :: rest => edgeLine ctx e ++ renderEdges ctx rest

/-- `Function::dot_cfg`: the graphviz header, the edge lines emitted by the
work-list traversal from the entry block, and the closing brace. -/
def dot_cfg (ctx : Context) (f : Nat) : String :=
  "digraph " ++ (ctx.fnOf f).name ++ " \x7b\n" ++ renderEdges ctx (cfgEdges ctx f)
    ++ "\x7d\n"

/-- `needle` occurs contiguously inside `hay`. -/
def substringOf (needle hay : String) : Prop := ∃ l r, hay = l ++ needle ++ r

/-! ### The public mutation operations as one inductive (for whole-lifecycle
invariants quantifying over arbitrary operation sequences) -/

/-- One public mutation operation of `Function`, applied to a fixed function
handle. -/
inductive Op where
  | mkBlock (label : Option String)
  | mkBlockBefore (other : Nat) (label : Option String)
  | mkBlockAfter (other : Nat) (label : Option String)
  | rmBlock (b : Nat)
  | mkLocalVar (name : String) (ty : Nat) (init : Option Nat)
  | mkUniqueLocalVar (name : String) (ty : Nat) (init : Option Nat)
  | uniqueLabel (hint : Option String)
  | mergeLocals (other : Nat)
  | replValues (m : List (Nat × Nat)) (sb : Option Nat)

/-- Apply one public operation to function `f`, keeping only the store. -/
def applyOp (ctx : Context) (f : Nat) : Op → Context
  | Op.mkBlock label => (create_block ctx f label).1
  | Op.mkBlockBefore other label => (create_block_before ctx f other label).1
  | Op.mkBlockAfter other label => (create_block_after ctx f other label).1
  | Op.rmBlock b => (remove_block ctx f b).1
  | Op.mkLocalVar name ty init => (new_local_var ctx f name ty init).1
  | Op.mkUniqueLocalVar name ty init => (new_unique_local_var ctx f name ty init).1
  | Op.uniqueLabel hint => (get_unique_label ctx f hint).1
  | Op.mergeLocals other => (merge_locals_from ctx f other).1
  | Op.replValues m sb => replace_values ctx f m sb

end SwayIR

namespace SwayIR

/-! ### Store-update helper lemmas -/

theorem getD_set_self {α : Type} (l : List α) (i : Nat) (a d : α) (h : i < l.length) :
    (l.set i a).getD i d = a := by
  rw [List.getD_eq_getElem?_getD, List.getElem?_set_self h]
  rfl

theorem getD_set_ne {α : Type} (l : List α) (i j : Nat) (a d : α) (h : j ≠ i) :
    (l.set i a).getD j d = l.getD j d := by
  rw [List.getD_eq_getElem?_getD, List.getElem?_set_ne (Ne.symm h),
    ← List.getD_eq_getElem?_getD]

theorem getD_append_self {α : Type} (l : List α) (a d : α) :
    (l ++ [a]).getD l.length d = a := by
  rw [List.getD_append_right l [a] d l.length (le_refl _), Nat.sub_self]
  rfl

theorem fnOf_modifyFn_self (ctx : Context) (f : Nat)
    (g : FunctionContent → FunctionContent) (hf : f < ctx.functions.length) :
    (ctx.modifyFn f g).fnOf f = g (ctx.fnOf f) :=
  getD_set_self ctx.functions f _ default hf

theorem fnOf_modifyFn_ne (ctx : Context) (f h : Nat)
    (g : FunctionContent → FunctionContent) (hne : h ≠ f) :
    (ctx.modifyFn f g).fnOf h = ctx.fnOf h :=
  getD_set_ne ctx.functions f h _ default hne

theorem modifyFn_blocks (ctx : Context) (f : Nat) (g : FunctionContent → FunctionContent) :
    (ctx.modifyFn f g).blocks = ctx.blocks := rfl

theorem modifyFn_values (ctx : Context) (f : Nat) (g : FunctionContent → FunctionContent) :
    (ctx.modifyFn f g).values = ctx.values := rfl

theorem modifyFn_local_vars (ctx : Context) (f : Nat)
    (g : FunctionContent → FunctionContent) :
    (ctx.modifyFn f g).local_vars = ctx.local_vars := rfl

theorem modifyFn_functions_length (ctx : Context) (f : Nat)
    (g : FunctionContent → FunctionContent) :
    (ctx.modifyFn f g).functions.length = ctx.functions.length :=
  List.length_set ctx.functions ..

theorem blkOf_modifyFn (ctx : Context) (f b : Nat)
    (g : FunctionContent → FunctionContent) :
    (ctx.modifyFn f g).blkOf b = ctx.blkOf b := rfl

end SwayIR

namespace SwayIR

/-! ### Properties of `new_local_var` -/

theorem new_local_var_fst (ctx : Context) (f : Nat) (name : String) (ty : Nat)
    (init : Option Nat) :
    (new_local_var ctx f name ty init).1 =
      ({ ctx with local_vars := ctx.local_vars ++ [LocalVarContent.mk ty init] }).modifyFn f
        (fun fc => { fc with
          local_storage :=
            ((ctx.fnOf f).local_storage.insert name ctx.local_vars.length).1 }) := rfl

theorem new_local_var_snd (ctx : Context) (f : Nat) (name : String) (ty : Nat)
    (init : Option Nat) :
    (new_local_var ctx f name ty init).2 =
      match (ctx.fnOf f).local_storage.get name with
      | some _ => Except.error (IrError.FunctionLocalClobbered (ctx.fnOf f).name name)
      | none => Except.ok ctx.local_vars.length := by
  show (match ((ctx.fnOf f).local_storage.insert name ctx.local_vars.length).2 with
      | some _ => Except.error (IrError.FunctionLocalClobbered (ctx.fnOf f).name name)
      | none => Except.ok ctx.local_vars.length) = _
  rw [SMap.insert_old]

theorem new_local_var_get_self (ctx : Context) (f : Nat) (name : String) (ty : Nat)
    (init : Option Nat) (hf : f < ctx.functions.length) :
    ((new_local_var ctx f name ty init).1.fnOf f).local_storage.get name =
      some ctx.local_vars.length := by
  rw [new_local_var_fst, fnOf_modifyFn_self _ _ _ (by simpa using hf)]
  exact SMap.get_insert_self ..

theorem new_local_var_get_ne (ctx : Context) (f : Nat) (name : String) (ty : Nat)
    (init : Option Nat) (hf : f < ctx.functions.length) (k : String) (hk : k ≠ name) :
    ((new_local_var ctx f name ty init).1.fnOf f).local_storage.get k =
      (ctx.fnOf f).local_storage.get k := by
  rw [new_local_var_fst, fnOf_modifyFn_self _ _ _ (by simpa using hf)]
  exact SMap.get_insert_ne _ _ _ _ hk

theorem new_local_var_fnOf_other (ctx : Context) (f : Nat) (name : String) (ty : Nat)
    (init : Option Nat) (g : Nat) (hg : g ≠ f) :
    (new_local_var ctx f name ty init).1.fnOf g = ctx.fnOf g := by
  rw [new_local_var_fst, fnOf_modifyFn_ne _ _ _ _ hg]
  rfl

theorem new_local_var_local_vars (ctx : Context) (f : Nat) (name : String) (ty : Nat)
    (init : Option Nat) :
    (new_local_var ctx f name ty init).1.local_vars =
      ctx.local_vars ++ [LocalVarContent.mk ty init] := rfl

theorem new_local_var_blocks (ctx : Context) (f : Nat) (name : String) (ty : Nat)
    (init : Option Nat) :
    (new_local_var ctx f name ty init).1.blocks = ctx.blocks := rfl

theorem new_local_var_functions_length (ctx : Context) (f : Nat) (name : String)
    (ty : Nat) (init : Option Nat) :
    (new_local_var ctx f name ty init).1.functions.length = ctx.functions.length := by
  rw [new_local_var_fst]
  exact List.length_set ..

theorem new_local_var_fn_frame (ctx : Context) (f : Nat) (name : String) (ty : Nat)
    (init : Option Nat) (hf : f < ctx.functions.length) :
    ((new_local_var ctx f name ty init).1.fnOf f).name = (ctx.fnOf f).name ∧
    ((new_local_var ctx f name ty init).1.fnOf f).blocks = (ctx.fnOf f).blocks ∧
    ((new_local_var ctx f name ty init).1.fnOf f).next_label_idx =
      (ctx.fnOf f).next_label_idx ∧
    ((new_local_var ctx f name ty init).1.fnOf f).arguments = (ctx.fnOf f).arguments := by
  rw [new_local_var_fst, fnOf_modifyFn_self _ _ _ (by simpa using hf)]
  exact ⟨rfl, rfl, rfl, rfl⟩

end SwayIR

namespace SwayIR

/-! ### Claim C1 -/

/-- Claim C1 (amended): when `s` is already a key of `f`'s local-variable table,
`new_local_var` fails with `FunctionLocalClobbered` carrying the function's name
and `s` — but the `BTreeMap::insert` has already replaced the binding, so
afterwards the table maps `s` to the freshly allocated handle, not to the handle
it mapped to before the call (only the old entity is orphaned, not the new one). -/
theorem C1_new_local_var_duplicate (ctx : Context) (f : Nat) (s : String) (ty : Nat)
    (init : Option Nat) (v : Nat) (hf : f < ctx.functions.length)
    (hs : (ctx.fnOf f).local_storage.get s = some v) :
    (new_local_var ctx f s ty init).2 =
      Except.error (IrError.FunctionLocalClobbered (ctx.fnOf f).name s) ∧
    ((new_local_var ctx f s ty init).1.fnOf f).local_storage.get s =
      some ctx.local_vars.length := by
  constructor
  · rw [new_local_var_snd, hs]
  · exact new_local_var_get_self ctx f s ty init hf

/-- A store with a single function "f" whose local-variable table binds "x" to the
(sole) local-variable handle 0. -/
def ctxOneLocal : Context :=
  ⟨[⟨"f", [], 0, [], false, false, none, none,
      ⟨[(("x" : String), 0)], by simp⟩, 0⟩],
   [], [], [⟨0, none⟩], []⟩

/-- Witness for C1 at a concrete input: function 0 of `ctxOneLocal` has "x" bound,
and the duplicate insert reports the clobbering error while rebinding "x" to the
fresh handle. -/
theorem C1_new_local_var_duplicate_witness :
    0 < ctxOneLocal.functions.length ∧
    (ctxOneLocal.fnOf 0).local_storage.get ("x") = some 0 ∧
    ((new_local_var ctxOneLocal 0 ("x") 7 none).2 =
      Except.error (IrError.FunctionLocalClobbered (ctxOneLocal.fnOf 0).name ("x")) ∧
     ((new_local_var ctxOneLocal 0 ("x") 7 none).1.fnOf 0).local_storage.get ("x") =
       some ctxOneLocal.local_vars.length) :=
  ⟨by decide, by decide,
    C1_new_local_var_duplicate ctxOneLocal 0 ("x") 7 none 0 (by decide) (by decide)⟩

/-- Claim C1 as frozen is false at a concrete input: in `ctxOneLocal`, "x" maps to
handle 0 before the call; the duplicate `new_local_var` call returns the
`FunctionLocalClobbered` error as claimed, but afterwards the table maps "x" to
the fresh handle 1 — not to the handle 0 it mapped to before the call, so the
table is not left unchanged on failure. -/
theorem C1_counterexample :
    (ctxOneLocal.fnOf 0).local_storage.get ("x") = some 0 ∧
    (new_local_var ctxOneLocal 0 ("x") 7 none).2 =
      Except.error (IrError.FunctionLocalClobbered ("f") ("x")) ∧
    ((new_local_var ctxOneLocal 0 ("x") 7 none).1.fnOf 0).local_storage.get ("x") =
      some 1 ∧
    some (1 : Nat) ≠ some 0 := by
  refine ⟨by decide, by rfl, by decide, by decide⟩

end SwayIR

namespace SwayIR

/-! ### Properties of the unique-label machinery -/

theorem uniqueLabelGo_not_mem (labels : List String) (c : Nat) (h : String)
    (hm : h ∉ labels) : uniqueLabelGo labels c h = (h, c) := by
  rw [uniqueLabelGo.eq_def, if_neg hm]

theorem uniqueLabelGo_mem (labels : List String) (c : Nat) (h : String)
    (hm : h ∈ labels) :
    uniqueLabelGo labels c h = uniqueLabelGo labels (c + 1) (h ++ Nat.repr c) := by
  rw [uniqueLabelGo.eq_def, if_pos hm]

theorem uniqueLabelGo_fresh (labels : List String) (c : Nat) (h : String) :
    (uniqueLabelGo labels c h).1 ∉ labels := by
  induction c, h using uniqueLabelGo.induct labels with
  | case1 c h hmem ih =>
    rw [uniqueLabelGo_mem labels c h hmem]
    exact ih
  | case2 c h hmem =>
    rw [uniqueLabelGo_not_mem labels c h hmem]
    exact hmem

theorem uniqueLabelGo_counter_ge (labels : List String) (c : Nat) (h : String) :
    c ≤ (uniqueLabelGo labels c h).2 := by
  induction c, h using uniqueLabelGo.induct labels with
  | case1 c h hmem ih =>
    rw [uniqueLabelGo_mem labels c h hmem]
    omega
  | case2 c h hmem =>
    rw [uniqueLabelGo_not_mem labels c h hmem]

theorem uniqueLabelGo_shape (labels : List String) (c : Nat) (h : String) :
    ∃ s : String, (uniqueLabelGo labels c h).1 = h ++ s ∧
      (s = "" ∨ 1 ≤ s.length) := by
  induction c, h using uniqueLabelGo.induct labels with
  | case1 c h hmem ih =>
    rw [uniqueLabelGo_mem labels c h hmem]
    obtain ⟨s', hs', _⟩ := ih
    refine ⟨Nat.repr c ++ s', ?_, Or.inr ?_⟩
    · rw [hs', String.append_assoc]
    · rw [String.length_append]
      have := repr_length_pos c
      omega
  | case2 c h hmem =>
    rw [uniqueLabelGo_not_mem labels c h hmem]
    exact ⟨"", (String.append_empty h).symm, Or.inl rfl⟩

theorem get_unique_label_snd_eq (ctx : Context) (f : Nat) :
    (get_unique_label ctx f none).2 =
      (uniqueLabelGo (labelsOf ctx f) ((ctx.fnOf f).next_label_idx + 1)
        ("block" ++ Nat.repr (ctx.fnOf f).next_label_idx)).1 := rfl

theorem get_unique_label_some_snd_eq (ctx : Context) (f : Nat) (h : String) :
    (get_unique_label ctx f (some h)).2 =
      (uniqueLabelGo (labelsOf ctx f) (ctx.fnOf f).next_label_idx h).1 := rfl

theorem get_unique_label_fst_eq (ctx : Context) (f : Nat) :
    (get_unique_label ctx f none).1 =
      ctx.modifyFn f (fun fc => { fc with
        next_label_idx :=
          (uniqueLabelGo (labelsOf ctx f) ((ctx.fnOf f).next_label_idx + 1)
            ("block" ++ Nat.repr (ctx.fnOf f).next_label_idx)).2 }) := rfl

theorem get_unique_label_some_fst_eq (ctx : Context) (f : Nat) (h : String) :
    (get_unique_label ctx f (some h)).1 =
      ctx.modifyFn f (fun fc => { fc with
        next_label_idx :=
          (uniqueLabelGo (labelsOf ctx f) (ctx.fnOf f).next_label_idx h).2 }) := rfl

/-- Any label returned by `get_unique_label` differs from every label of a block
currently in the function's block list. -/
theorem get_unique_label_not_current (ctx : Context) (f : Nat) (hint : Option String) :
    (get_unique_label ctx f hint).2 ∉ labelsOf ctx f := by
  cases hint with
  | none => exact uniqueLabelGo_fresh (labelsOf ctx f) _ _
  | some h => exact uniqueLabelGo_fresh (labelsOf ctx f) _ _

/-- The fast path of an unhinted call: when the seeded name is free it is returned
as is and exactly one counter value is consumed. -/
theorem get_unique_label_none_free (ctx : Context) (f : Nat)
    (hfree : ("block" ++ Nat.repr (ctx.fnOf f).next_label_idx) ∉ labelsOf ctx f) :
    get_unique_label ctx f none =
      (ctx.modifyFn f (fun fc => { fc with
          next_label_idx := (ctx.fnOf f).next_label_idx + 1 }),
        "block" ++ Nat.repr (ctx.fnOf f).next_label_idx) := by
  rw [Prod.ext_iff, get_unique_label_fst_eq, get_unique_label_snd_eq,
    uniqueLabelGo_not_mem _ _ _ hfree]
  exact ⟨rfl, rfl⟩

/-- An unhinted call never returns `"block" ++ K` for an already consumed index
`K` (one strictly below the current counter): the label it returns extends
`"block" ++ c` for the current counter value `c`, and decimal renderings of larger
numbers are never shorter. -/
theorem get_unique_label_no_reissue (ctx : Context) (f : Nat) (K : Nat)
    (hK : K < (ctx.fnOf f).next_label_idx) :
    (get_unique_label ctx f none).2 ≠ "block" ++ Nat.repr K := by
  rw [get_unique_label_snd_eq]
  obtain ⟨s, hs, hlen⟩ := uniqueLabelGo_shape (labelsOf ctx f)
    ((ctx.fnOf f).next_label_idx + 1)
    ("block" ++ Nat.repr (ctx.fnOf f).next_label_idx)
  rw [hs]
  rcases hlen with hempty | hpos
  · subst hempty
    rw [String.append_empty]
    intro heq
    have := repr_inj _ _ (string_append_cancel_left _ _ _ heq)
    omega
  · intro heq
    have hlen := congrArg String.length heq
    rw [String.length_append, String.length_append, String.length_append] at hlen
    have hmono := repr_length_mono K (ctx.fnOf f).next_label_idx (by omega)
    omega

end SwayIR

namespace SwayIR

/-! ### Claim C3 -/

theorem modifyFn_out_of_range (ctx : Context) (f : Nat)
    (g : FunctionContent → FunctionContent) (hf : ctx.functions.length ≤ f) :
    ctx.modifyFn f g = ctx := by
  show { ctx with functions := ctx.functions.set f _ } = ctx
  rw [List.set_eq_of_length_le hf]

theorem labelsOf_modifyFn_counter (ctx : Context) (f : Nat) (c' : Nat) :
    labelsOf (ctx.modifyFn f (fun fc => { fc with next_label_idx := c' })) f =
      labelsOf ctx f := by
  by_cases hf : f < ctx.functions.length
  · unfold labelsOf
    rw [fnOf_modifyFn_self _ _ _ hf]
    rfl
  · rw [modifyFn_out_of_range _ _ _ (by omega)]

/-- The labels returned by `n` successive unhinted `get_unique_label` calls, in
call order. -/
def unhintedLabels : Context → Nat → Nat → List String
  | _, _, 0 => []
  | ctx, f, n + 1 =>
    let r := get_unique_label ctx f none
    r.2 :: unhintedLabels r.1 f n

theorem unhintedLabels_eq_range : ∀ (N : Nat) (ctx : Context) (f : Nat),
    f < ctx.functions.length →
    (∀ i < N, ("block" ++ Nat.repr ((ctx.fnOf f).next_label_idx + i)) ∉ labelsOf ctx f) →
    unhintedLabels ctx f N =
      (List.range N).map (fun i => "block" ++ Nat.repr ((ctx.fnOf f).next_label_idx + i))
  | 0, ctx, f => by
    intro _ _
    simp [unhintedLabels]
  | N + 1, ctx, f => by
    intro hf hfree
    have hfree0 : ("block" ++ Nat.repr (ctx.fnOf f).next_label_idx) ∉ labelsOf ctx f := by
      have := hfree 0 (by omega)
      rwa [Nat.add_zero] at this
    have e1 := get_unique_label_none_free ctx f hfree0
    show (get_unique_label ctx f none).2 ::
      unhintedLabels (get_unique_label ctx f none).1 f N = _
    rw [e1]
    have hf' : f < ((ctx.modifyFn f (fun fc => { fc with
        next_label_idx := (ctx.fnOf f).next_label_idx + 1 })).functions).length := by
      rw [modifyFn_functions_length]
      exact hf
    have hc' : ((ctx.modifyFn f (fun fc => { fc with
        next_label_idx := (ctx.fnOf f).next_label_idx + 1 })).fnOf f).next_label_idx =
        (ctx.fnOf f).next_label_idx + 1 := by
      rw [fnOf_modifyFn_self _ _ _ hf]
    have hrec := unhintedLabels_eq_range N
      (ctx.modifyFn f (fun fc => { fc with
        next_label_idx := (ctx.fnOf f).next_label_idx + 1 })) f hf'
      (by
        intro i hi
        rw [hc', labelsOf_modifyFn_counter]
        have := hfree (i + 1) (by omega)
        have harith : (ctx.fnOf f).next_label_idx + (i + 1) =
            (ctx.fnOf f).next_label_idx + 1 + i := by omega
        rwa [harith] at this)
    rw [hrec, hc', List.range_succ_eq_map, List.map_cons, List.map_map]
    congr 1
    apply List.map_congr_left
    intro a _
    show "block" ++ Nat.repr ((ctx.fnOf f).next_label_idx + 1 + a) =
      "block" ++ Nat.repr ((ctx.fnOf f).next_label_idx + Nat.succ a)
    have : (ctx.fnOf f).next_label_idx + 1 + a =
        (ctx.fnOf f).next_label_idx + Nat.succ a := by omega
    rw [this]

/-- Claim C3 (amended): starting from counter value `c`, `N` successive unhinted
`get_unique_label` calls return exactly `"block{c}", …, "block{c+N-1}"` provided
none of those names labels a current block (for a freshly constructed function
`c = 0`, giving `"block0", …, "block{N-1}"`); and every label returned by
`get_unique_label` (hinted or not) differs from the label of every block currently
in the function's block list. -/
theorem C3_get_unique_label_sequence (N : Nat) (ctx : Context) (f : Nat)
    (hf : f < ctx.functions.length)
    (hfree : ∀ i < N,
      ("block" ++ Nat.repr ((ctx.fnOf f).next_label_idx + i)) ∉ labelsOf ctx f) :
    unhintedLabels ctx f N =
      (List.range N).map
        (fun i => "block" ++ Nat.repr ((ctx.fnOf f).next_label_idx + i)) ∧
    ∀ (ctx' : Context) (f' : Nat) (hint : Option String),
      (get_unique_label ctx' f' hint).2 ∉ labelsOf ctx' f' :=
  ⟨unhintedLabels_eq_range N ctx f hf hfree,
    fun ctx' f' hint => get_unique_label_not_current ctx' f' hint⟩

/-- A store holding one freshly constructed function: entry block only, label
counter 0. -/
def ctxFreshFn : Context :=
  ⟨[⟨"f", [], 0, [0], false, false, none, none, SMap.empty, 0⟩],
   [⟨"entry", 0, [], [], []⟩], [], [], []⟩

/-- Witness for C3 at a concrete input: on the fresh function the hypotheses hold
and two unhinted calls yield ["block0", "block1"]. -/
theorem C3_get_unique_label_sequence_witness :
    0 < ctxFreshFn.functions.length ∧
    (∀ i < 2,
      ("block" ++ Nat.repr ((ctxFreshFn.fnOf 0).next_label_idx + i)) ∉
        labelsOf ctxFreshFn 0) ∧
    (unhintedLabels ctxFreshFn 0 2 =
      (List.range 2).map
        (fun i => "block" ++ Nat.repr ((ctxFreshFn.fnOf 0).next_label_idx + i)) ∧
     ∀ (ctx' : Context) (f' : Nat) (hint : Option String),
       (get_unique_label ctx' f' hint).2 ∉ labelsOf ctx' f') :=
  ⟨by decide, by decide,
    C3_get_unique_label_sequence 2 ctxFreshFn 0 (by decide) (by decide)⟩

/-- `ctxFreshFn` after one unhinted call (counter 1). -/
def ctxFreshFn1 : Context :=
  ⟨[⟨"f", [], 0, [0], false, false, none, none, SMap.empty, 1⟩],
   [⟨"entry", 0, [], [], []⟩], [], [], []⟩

/-- `ctxFreshFn` after two unhinted calls (counter 2). -/
def ctxFreshFn2 : Context :=
  ⟨[⟨"f", [], 0, [0], false, false, none, none, SMap.empty, 2⟩],
   [⟨"entry", 0, [], [], []⟩], [], [], []⟩

/-- Claim C3 as frozen is false at a concrete input: the claim quantifies over
every function, but after two unhinted calls on the fresh function (and no block
insertions at all), a single further unhinted call returns "block2", not the
"block0" the claim requires for N = 1. -/
theorem C3_counterexample :
    (get_unique_label ctxFreshFn 0 none).1 = ctxFreshFn1 ∧
    (get_unique_label ctxFreshFn1 0 none).1 = ctxFreshFn2 ∧
    unhintedLabels ctxFreshFn2 0 1 = [("block2")] ∧
    [("block2")] ≠ [("block0")] := by
  have e1 := get_unique_label_none_free ctxFreshFn 0 (by decide)
  have e2 := get_unique_label_none_free ctxFreshFn1 0 (by decide)
  have e3 := get_unique_label_none_free ctxFreshFn2 0 (by decide)
  refine ⟨?_, ?_, ?_, by decide⟩
  · rw [Prod.ext_iff] at e1
    rw [e1.1]
    rfl
  · rw [Prod.ext_iff] at e2
    rw [e2.1]
    rfl
  · show (get_unique_label ctxFreshFn2 0 none).2 ::
      unhintedLabels (get_unique_label ctxFreshFn2 0 none).1 0 0 = _
    rw [Prod.ext_iff] at e3
    rw [e3.2]
    rfl

end SwayIR

namespace SwayIR

/-! ### Claim C4: counter monotonicity -/

/-- Every function's label counter in `ctx` is at most its counter in `ctx'`. -/
def counterLE (ctx ctx' : Context) : Prop :=
  ∀ h : Nat, (ctx.fnOf h).next_label_idx ≤ (ctx'.fnOf h).next_label_idx

theorem counterLE_refl (ctx : Context) : counterLE ctx ctx := fun _ => le_refl _

theorem counterLE_trans {a b c : Context} (h1 : counterLE a b) (h2 : counterLE b c) :
    counterLE a c := fun f => le_trans (h1 f) (h2 f)

theorem counterLE_of_functions_eq {ctx ctx' : Context}
    (h : ctx'.functions = ctx.functions) : counterLE ctx ctx' := by
  intro f
  show (ctx.functions.getD f default).next_label_idx ≤
    (ctx'.functions.getD f default).next_label_idx
  rw [h]

theorem counterLE_modifyFn (ctx : Context) (f : Nat)
    (g : FunctionContent → FunctionContent)
    (hg : (ctx.fnOf f).next_label_idx ≤ (g (ctx.fnOf f)).next_label_idx) :
    counterLE ctx (ctx.modifyFn f g) := by
  intro h
  by_cases hh : h = f
  · subst hh
    by_cases hlt : h < ctx.functions.length
    · rw [fnOf_modifyFn_self _ _ _ hlt]
      exact hg
    · rw [modifyFn_out_of_range _ _ _ (by omega)]
  · rw [fnOf_modifyFn_ne _ _ _ _ hh]

theorem counterLE_get_unique_label (ctx : Context) (f : Nat) (hint : Option String) :
    counterLE ctx (get_unique_label ctx f hint).1 := by
  cases hint with
  | none =>
    rw [get_unique_label_fst_eq]
    apply counterLE_modifyFn
    show (ctx.fnOf f).next_label_idx ≤
      (uniqueLabelGo (labelsOf ctx f) ((ctx.fnOf f).next_label_idx + 1)
        ("block" ++ Nat.repr (ctx.fnOf f).next_label_idx)).2
    have := uniqueLabelGo_counter_ge (labelsOf ctx f)
      ((ctx.fnOf f).next_label_idx + 1)
      ("block" ++ Nat.repr (ctx.fnOf f).next_label_idx)
    omega
  | some h =>
    rw [get_unique_label_some_fst_eq]
    apply counterLE_modifyFn
    show (ctx.fnOf f).next_label_idx ≤
      (uniqueLabelGo (labelsOf ctx f) (ctx.fnOf f).next_label_idx h).2
    exact uniqueLabelGo_counter_ge (labelsOf ctx f) (ctx.fnOf f).next_label_idx h

theorem counterLE_Block_new (ctx : Context) (f : Nat) (label : Option String) :
    counterLE ctx (Block.new ctx f label).1 := by
  apply counterLE_trans (counterLE_get_unique_label ctx f label)
  exact counterLE_of_functions_eq rfl

theorem counterLE_create_block (ctx : Context) (f : Nat) (label : Option String) :
    counterLE ctx (create_block ctx f label).1 := by
  apply counterLE_trans (counterLE_Block_new ctx f label)
  exact counterLE_modifyFn _ _ _ (le_refl _)

theorem create_block_before_eq (ctx : Context) (f other : Nat)
    (label : Option String) :
    create_block_before ctx f other label =
      match List.findIdx? (fun b => b == other) ((Block.new ctx f label).1.fnOf f).blocks with
      | some idx =>
        ((Block.new ctx f label).1.modifyFn f (fun fc =>
          { fc with blocks := fc.blocks.insertIdx idx (Block.new ctx f label).2 }),
          Except.ok (Block.new ctx f label).2)
      | none =>
        ((Block.new ctx f label).1,
          Except.error (IrError.MissingBlock
            ((Block.new ctx f label).1.blkOf other).label)) := rfl

theorem create_block_after_eq (ctx : Context) (f other : Nat)
    (label : Option String) :
    create_block_after ctx f other label =
      match List.findIdx? (fun b => b == other) ((Block.new ctx f label).1.fnOf f).blocks with
      | some idx =>
        ((Block.new ctx f label).1.modifyFn f (fun fc =>
          { fc with blocks := fc.blocks.insertIdx (idx + 1) (Block.new ctx f label).2 }),
          Except.ok (Block.new ctx f label).2)
      | none =>
        ((Block.new ctx f label).1,
          Except.error (IrError.MissingBlock
            ((Block.new ctx f label).1.blkOf other).label)) := rfl

theorem remove_block_eq (ctx : Context) (f b : Nat) :
    remove_block ctx f b =
      match List.findIdx? (fun x => x == b) (ctx.fnOf f).blocks with
      | none => (ctx, Except.error (IrError.RemoveMissingBlock (ctx.blkOf b).label))
      | some idx =>
        (ctx.modifyFn f (fun fc => { fc with blocks := fc.blocks.eraseIdx idx }),
          Except.ok ()) := rfl

theorem counterLE_create_block_before (ctx : Context) (f other : Nat)
    (label : Option String) :
    counterLE ctx (create_block_before ctx f other label).1 := by
  rw [create_block_before_eq]
  split
  · exact counterLE_trans (counterLE_Block_new ctx f label)
      (counterLE_modifyFn _ _ _ (le_refl _))
  · exact counterLE_Block_new ctx f label

theorem counterLE_create_block_after (ctx : Context) (f other : Nat)
    (label : Option String) :
    counterLE ctx (create_block_after ctx f other label).1 := by
  rw [create_block_after_eq]
  split
  · exact counterLE_trans (counterLE_Block_new ctx f label)
      (counterLE_modifyFn _ _ _ (le_refl _))
  · exact counterLE_Block_new ctx f label

theorem counterLE_remove_block (ctx : Context) (f b : Nat) :
    counterLE ctx (remove_block ctx f b).1 := by
  rw [remove_block_eq]
  split
  · exact counterLE_refl ctx
  · exact counterLE_modifyFn _ _ _ (le_refl _)

theorem counterLE_new_local_var (ctx : Context) (f : Nat) (name : String) (ty : Nat)
    (init : Option Nat) :
    counterLE ctx (new_local_var ctx f name ty init).1 := by
  rw [new_local_var_fst]
  exact counterLE_trans
    (@counterLE_of_functions_eq ctx
      { ctx with local_vars := ctx.local_vars ++ [LocalVarContent.mk ty init] }
      rfl)
    (counterLE_modifyFn { ctx with local_vars := ctx.local_vars ++ [LocalVarContent.mk ty init] }
      f _ (le_refl _))

theorem counterLE_new_unique_local_var (ctx : Context) (f : Nat) (name : String)
    (ty : Nat) (init : Option Nat) :
    counterLE ctx (new_unique_local_var ctx f name ty init).1 :=
  counterLE_new_local_var ctx f _ ty init

theorem counterLE_mergeGo (f : Nat) :
    ∀ (l : List (String × Nat × LocalVarContent)) (ctx : Context)
      (vm : List (Nat × Nat)), counterLE ctx (mergeGo f ctx l vm).1 := by
  intro l
  induction l with
  | nil => intro ctx vm; exact counterLE_refl ctx
  | cons hd tl ih =>
    intro ctx vm
    obtain ⟨name, old, content⟩ := hd
    exact counterLE_trans
      (counterLE_new_unique_local_var ctx f name content.ty content.initializer)
      (ih _ _)

theorem counterLE_merge_locals_from (ctx : Context) (f other : Nat) :
    counterLE ctx (merge_locals_from ctx f other).1 :=
  counterLE_mergeGo f _ ctx []

theorem foldl_functions_eq {β : Type} (step : Context → β → Context)
    (hstep : ∀ c x, (step c x).functions = c.functions) :
    ∀ (l : List β) (c : Context), (l.foldl step c).functions = c.functions := by
  intro l
  induction l with
  | nil => intro c; rfl
  | cons hd tl ih =>
    intro c
    rw [List.foldl_cons, ih (step c hd), hstep]

theorem Block_replace_values_functions (ctx : Context) (b : Nat)
    (m : List (Nat × Nat)) :
    (Block.replace_values ctx b m).functions = ctx.functions := by
  unfold Block.replace_values
  apply foldl_functions_eq
  intro c v
  rfl

theorem replace_values_functions (ctx : Context) (f : Nat) (m : List (Nat × Nat))
    (sb : Option Nat) : (replace_values ctx f m sb).functions = ctx.functions := by
  unfold replace_values
  exact foldl_functions_eq _ (fun c b => Block_replace_values_functions c b m) _ ctx

theorem counterLE_applyOp (ctx : Context) (g : Nat) (op : Op) :
    counterLE ctx (applyOp ctx g op) := by
  cases op with
  | mkBlock label => exact counterLE_create_block ctx g label
  | mkBlockBefore other label => exact counterLE_create_block_before ctx g other label
  | mkBlockAfter other label => exact counterLE_create_block_after ctx g other label
  | rmBlock b => exact counterLE_remove_block ctx g b
  | mkLocalVar name ty init => exact counterLE_new_local_var ctx g name ty init
  | mkUniqueLocalVar name ty init =>
    exact counterLE_new_unique_local_var ctx g name ty init
  | uniqueLabel hint => exact counterLE_get_unique_label ctx g hint
  | mergeLocals other => exact counterLE_merge_locals_from ctx g other
  | replValues m sb =>
    exact counterLE_of_functions_eq (replace_values_functions ctx g m sb)

/-- Claim C4 (amended): the private label counter never decreases across any
public operation (applied to any function); and an unhinted `get_unique_label`
call never returns `"blockK"` for an index `K` the counter has already passed.
(The original claim's stronger form — that a *removed* auto-generated label
`"blockK"` is never re-issued — fails when the label was composed by collision
suffixing, see `C4_counterexample`.) -/
theorem C4_counter_monotone (ctx : Context) (g : Nat) (op : Op) (f K : Nat)
    (hK : K < (ctx.fnOf f).next_label_idx) :
    (ctx.fnOf f).next_label_idx ≤ ((applyOp ctx g op).fnOf f).next_label_idx ∧
    (get_unique_label ctx f none).2 ≠ "block" ++ Nat.repr K :=
  ⟨counterLE_applyOp ctx g op f, get_unique_label_no_reissue ctx f K hK⟩

/-- Witness for C4 at a concrete input: on the fresh function after one call
(counter 1), index 0 is consumed; removing a block never decreases the counter
and the unhinted call does not return "block0". -/
theorem C4_counter_monotone_witness :
    0 < (ctxFreshFn1.fnOf 0).next_label_idx ∧
    ((ctxFreshFn1.fnOf 0).next_label_idx ≤
      ((applyOp ctxFreshFn1 0 (Op.rmBlock 5)).fnOf 0).next_label_idx ∧
     (get_unique_label ctxFreshFn1 0 none).2 ≠ "block" ++ Nat.repr 0) :=
  ⟨by decide, C4_counter_monotone ctxFreshFn1 0 (Op.rmBlock 5) 0 0 (by decide)⟩

/-- A function with blocks labeled "entry" and "block1" and label counter 1: the
next unhinted label draw will collide with "block1" and compose "block12". -/
def ctxCollide : Context :=
  ⟨[⟨"f", [], 0, [0, 1], false, false, none, none, SMap.empty, 1⟩],
   [⟨"entry", 0, [], [], []⟩, ⟨"block1", 0, [], [], []⟩], [], [], []⟩

/-- `ctxCollide` after the label draw (counter 3). -/
def ctxCollideA : Context :=
  ⟨[⟨"f", [], 0, [0, 1], false, false, none, none, SMap.empty, 3⟩],
   [⟨"entry", 0, [], [], []⟩, ⟨"block1", 0, [], [], []⟩], [], [], []⟩

/-- `ctxCollide` after the block allocation of `create_block` (arena holds the new
"block12" block, not yet in the function's list). -/
def ctxCollideAB : Context :=
  ⟨[⟨"f", [], 0, [0, 1], false, false, none, none, SMap.empty, 3⟩],
   [⟨"entry", 0, [], [], []⟩, ⟨"block1", 0, [], [], []⟩,
    ⟨"block12", 0, [], [], []⟩], [], [], []⟩

/-- `ctxCollide` after `create_block` with no hint: block 2 labeled "block12". -/
def ctxCollideB : Context :=
  ⟨[⟨"f", [], 0, [0, 1, 2], false, false, none, none, SMap.empty, 3⟩],
   [⟨"entry", 0, [], [], []⟩, ⟨"block1", 0, [], [], []⟩,
    ⟨"block12", 0, [], [], []⟩], [], [], []⟩

/-- `ctxCollideB` after removing block 2 from the function's list. -/
def ctxCollideC : Context :=
  ⟨[⟨"f", [], 0, [0, 1], false, false, none, none, SMap.empty, 3⟩],
   [⟨"entry", 0, [], [], []⟩, ⟨"block1", 0, [], [], []⟩,
    ⟨"block12", 0, [], [], []⟩], [], [], []⟩

/-- Claim C4 as frozen is false at a concrete input: in `ctxCollide`, an unhinted
`create_block` auto-generates the label "block12" (collision suffixing: seed
"block1" collides, suffix 2 is appended, counter ends at 3).  After removing that
block, ten further unhinted calls re-issue "block12" (at counter 12), because the
suffix-composed index 12 was never consumed by the counter. -/
theorem C4_counterexample :
    ((create_block ctxCollide 0 none).1.blkOf (create_block ctxCollide 0 none).2).label
      = ("block12") ∧
    (remove_block (create_block ctxCollide 0 none).1 0
      (create_block ctxCollide 0 none).2).2 = Except.ok () ∧
    ("block12") ∈ unhintedLabels
      (remove_block (create_block ctxCollide 0 none).1 0
        (create_block ctxCollide 0 none).2).1 0 10 := by
  have hgo : uniqueLabelGo (labelsOf ctxCollide 0)
      ((ctxCollide.fnOf 0).next_label_idx + 1)
      ("block" ++ Nat.repr (ctxCollide.fnOf 0).next_label_idx) = (("block12"), 3) := by
    rw [uniqueLabelGo_mem _ _ _ (by decide)]
    rw [uniqueLabelGo_not_mem _ _ _ (by decide)]
    rfl
  have e1 : get_unique_label ctxCollide 0 none = (ctxCollideA, ("block12")) := by
    rw [Prod.ext_iff]
    constructor
    · rw [get_unique_label_fst_eq, hgo]
      rfl
    · rw [get_unique_label_snd_eq, hgo]
  have e2 : Block.new ctxCollide 0 none = (ctxCollideAB, 2) := by
    unfold Block.new
    rw [e1]
    rfl
  have e3 : create_block ctxCollide 0 none = (ctxCollideB, 2) := by
    unfold create_block
    rw [e2]
    rfl
  have e4 : remove_block ctxCollideB 0 2 = (ctxCollideC, Except.ok ()) := by rfl
  refine ⟨?_, ?_, ?_⟩
  · rw [e3]
    decide
  · rw [e3, e4]
  · rw [e3, e4]
    show ("block12") ∈ unhintedLabels ctxCollideC 0 10
    rw [unhintedLabels_eq_range 10 ctxCollideC 0 (by decide) (by decide)]
    decide

end SwayIR

namespace SwayIR

/-! ### Claim C2: the entry block stays at position 0 -/

theorem findIdx?_ge_start {α : Type} (p : α → Bool) :
    ∀ (xs : List α) (i j : Nat), List.findIdx? p xs i = some j → i ≤ j := by
  intro xs
  induction xs with
  | nil => intro i j h; exact absurd h (by simp)
  | cons x xs ih =>
    intro i j h
    rw [List.findIdx?_cons] at h
    by_cases hp : p x
    · rw [if_pos hp] at h
      injection h with h'
      omega
    · rw [if_neg hp] at h
      have := ih (i + 1) j h
      omega

theorem head?_insertIdx_of_pos {α : Type} (l : List α) (idx : Nat) (x : α)
    (hidx : 1 ≤ idx) : (l.insertIdx idx x).head? = l.head? := by
  cases l with
  | nil =>
    cases idx with
    | zero => omega
    | succ n => rfl
  | cons a as =>
    cases idx with
    | zero => omega
    | succ n => rfl

theorem head?_eraseIdx_of_pos {α : Type} (l : List α) (idx : Nat)
    (hidx : 1 ≤ idx) : (l.eraseIdx idx).head? = l.head? := by
  cases l with
  | nil => rfl
  | cons a as =>
    cases idx with
    | zero => omega
    | succ n => rfl

/-- The blocks list of any function is unchanged by the modification when the
update function itself preserves the blocks field at the touched entry. -/
theorem fn_blocks_modifyFn (ctx : Context) (f h : Nat)
    (g : FunctionContent → FunctionContent)
    (hg : (g (ctx.fnOf f)).blocks = (ctx.fnOf f).blocks) :
    ((ctx.modifyFn f g).fnOf h).blocks = (ctx.fnOf h).blocks := by
  by_cases hh : h = f
  · subst hh
    by_cases hlt : h < ctx.functions.length
    · rw [fnOf_modifyFn_self _ _ _ hlt, hg]
    · rw [modifyFn_out_of_range _ _ _ (by omega)]
  · rw [fnOf_modifyFn_ne _ _ _ _ hh]

theorem fn_blocks_Block_new (ctx : Context) (f : Nat) (label : Option String) (h : Nat) :
    ((Block.new ctx f label).1.fnOf h).blocks = (ctx.fnOf h).blocks := by
  show ((get_unique_label ctx f label).1.fnOf h).blocks = (ctx.fnOf h).blocks
  cases label with
  | none =>
    rw [get_unique_label_fst_eq]
    exact fn_blocks_modifyFn ctx f h _ rfl
  | some s =>
    rw [get_unique_label_some_fst_eq]
    exact fn_blocks_modifyFn ctx f h _ rfl

theorem fn_blocks_new_local_var (ctx : Context) (f : Nat) (name : String) (ty : Nat)
    (init : Option Nat) (h : Nat) :
    ((new_local_var ctx f name ty init).1.fnOf h).blocks = (ctx.fnOf h).blocks := by
  rw [new_local_var_fst]
  exact fn_blocks_modifyFn _ f h _ rfl

theorem fn_blocks_mergeGo (f : Nat) :
    ∀ (l : List (String × Nat × LocalVarContent)) (ctx : Context)
      (vm : List (Nat × Nat)) (h : Nat),
      ((mergeGo f ctx l vm).1.fnOf h).blocks = (ctx.fnOf h).blocks := by
  intro l
  induction l with
  | nil => intro ctx vm h; rfl
  | cons hd tl ih =>
    intro ctx vm h
    obtain ⟨name, old, content⟩ := hd
    show ((mergeGo f
      (new_unique_local_var ctx f name content.ty content.initializer).1 tl
      ((old, (new_unique_local_var ctx f name content.ty content.initializer).2) :: vm)).1.fnOf
        h).blocks = (ctx.fnOf h).blocks
    rw [ih _ _ h]
    exact fn_blocks_new_local_var ctx f _ content.ty content.initializer h

theorem fnOf_of_functions_eq {ctx ctx' : Context} (h : ctx'.functions = ctx.functions)
    (f : Nat) : ctx'.fnOf f = ctx.fnOf f := by
  show ctx'.functions.getD f default = ctx.functions.getD f default
  rw [h]

/-- Head preservation through a single targeted modification whose update keeps
the head of the blocks list. -/
theorem head?_modifyFn (ctx : Context) (f e : Nat)
    (g : FunctionContent → FunctionContent)
    (h : (ctx.fnOf f).blocks.head? = some e)
    (hg : (g (ctx.fnOf f)).blocks.head? = (ctx.fnOf f).blocks.head?) :
    ((ctx.modifyFn f g).fnOf f).blocks.head? = some e := by
  by_cases hlt : f < ctx.functions.length
  · rw [fnOf_modifyFn_self _ _ _ hlt, hg]
    exact h
  · rw [modifyFn_out_of_range _ _ _ (by omega)]
    exact h

/-- Which operations are allowed by the amended claim C2: any operation except
removing the entry block itself or inserting with the entry block as the
before-anchor. -/
def protectsEntry (e : Nat) : Op → Prop
  | Op.rmBlock b => b ≠ e
  | Op.mkBlockBefore other _ => other ≠ e
  | _ => True

/-- Apply a sequence of public operations to function `f` in order. -/
def applyOps (ctx : Context) (f : Nat) (ops : List Op) : Context :=
  ops.foldl (fun c op => applyOp c f op) ctx

theorem head_cons_of_head? {α : Type} {l : List α} {e : α} (h : l.head? = some e) :
    ∃ rest, l = e :: rest := by
  cases l with
  | nil => exact absurd h (by simp)
  | cons a as =>
    simp only [List.head?_cons, Option.some.injEq] at h
    exact ⟨as, by rw [h]⟩

theorem entryHead_applyOp (ctx : Context) (f e : Nat) (op : Op)
    (hop : protectsEntry e op) (h : (ctx.fnOf f).blocks.head? = some e) :
    ((applyOp ctx f op).fnOf f).blocks.head? = some e := by
  cases op with
  | mkBlock label =>
    show (((Block.new ctx f label).1.modifyFn f _).fnOf f).blocks.head? = some e
    have hblk := fn_blocks_Block_new ctx f label f
    apply head?_modifyFn _ _ _ _ (by rw [hblk]; exact h)
    show (((Block.new ctx f label).1.fnOf f).blocks ++ [(Block.new ctx f label).2]).head? = _
    rw [List.head?_append, hblk, h]
    rfl
  | mkBlockBefore other label =>
    show ((create_block_before ctx f other label).1.fnOf f).blocks.head? = some e
    rw [create_block_before_eq]
    cases hidx : List.findIdx? (fun b => b == other)
        ((Block.new ctx f label).1.fnOf f).blocks with
    | none =>
      rw [fn_blocks_Block_new]
      exact h
    | some idx =>
      have hblk := fn_blocks_Block_new ctx f label f
      have hidx1 : 1 ≤ idx := by
        rw [hblk] at hidx
        obtain ⟨rest, hrest⟩ := head_cons_of_head? h
        rw [hrest, List.findIdx?_cons] at hidx
        have hpe : ((e == other) = false) := by
          simp only [beq_eq_false_iff_ne, ne_eq]
          intro he
          exact hop he.symm
        rw [hpe, if_neg (by simp)] at hidx
        have := findIdx?_ge_start (fun b => b == other) rest 1 idx hidx
        omega
      apply head?_modifyFn _ _ _ _ (by rw [hblk]; exact h)
      show (List.insertIdx idx (Block.new ctx f label).2
        ((Block.new ctx f label).1.fnOf f).blocks).head? = _
      rw [head?_insertIdx_of_pos _ _ _ hidx1]
  | mkBlockAfter other label =>
    show ((create_block_after ctx f other label).1.fnOf f).blocks.head? = some e
    rw [create_block_after_eq]
    cases hidx : List.findIdx? (fun b => b == other)
        ((Block.new ctx f label).1.fnOf f).blocks with
    | none =>
      rw [fn_blocks_Block_new]
      exact h
    | some idx =>
      have hblk := fn_blocks_Block_new ctx f label f
      apply head?_modifyFn _ _ _ _ (by rw [hblk]; exact h)
      show (List.insertIdx (idx + 1) (Block.new ctx f label).2
        ((Block.new ctx f label).1.fnOf f).blocks).head? = _
      rw [head?_insertIdx_of_pos _ _ _ (by omega)]
  | rmBlock b =>
    show ((remove_block ctx f b).1.fnOf f).blocks.head? = some e
    rw [remove_block_eq]
    cases hidx : List.findIdx? (fun x => x == b) (ctx.fnOf f).blocks with
    | none => exact h
    | some idx =>
      have hidx1 : 1 ≤ idx := by
        obtain ⟨rest, hrest⟩ := head_cons_of_head? h
        rw [hrest, List.findIdx?_cons] at hidx
        have hpe : ((e == b) = false) := by
          simp only [beq_eq_false_iff_ne, ne_eq]
          intro he
          exact hop he.symm
        rw [hpe, if_neg (by simp)] at hidx
        have := findIdx?_ge_start (fun x => x == b) rest 1 idx hidx
        omega
      apply head?_modifyFn _ _ _ _ h
      show ((ctx.fnOf f).blocks.eraseIdx idx).head? = _
      rw [head?_eraseIdx_of_pos _ _ hidx1]
  | mkLocalVar name ty init =>
    show ((new_local_var ctx f name ty init).1.fnOf f).blocks.head? = some e
    rw [fn_blocks_new_local_var]
    exact h
  | mkUniqueLocalVar name ty init =>
    show ((new_local_var ctx f
      (chooseUniqueName (ctx.fnOf f).local_storage name) ty init).1.fnOf
        f).blocks.head? = some e
    rw [fn_blocks_new_local_var]
    exact h
  | uniqueLabel hint =>
    show ((get_unique_label ctx f hint).1.fnOf f).blocks.head? = some e
    cases hint with
    | none =>
      rw [get_unique_label_fst_eq, fn_blocks_modifyFn _ _ _ _ rfl]
      exact h
    | some s =>
      rw [get_unique_label_some_fst_eq, fn_blocks_modifyFn _ _ _ _ rfl]
      exact h
  | mergeLocals other =>
    show ((merge_locals_from ctx f other).1.fnOf f).blocks.head? = some e
    show ((mergeGo f ctx _ []).1.fnOf f).blocks.head? = some e
    rw [fn_blocks_mergeGo]
    exact h
  | replValues m sb =>
    show ((replace_values ctx f m sb).fnOf f).blocks.head? = some e
    rw [fnOf_of_functions_eq (replace_values_functions ctx f m sb)]
    exact h

end SwayIR

namespace SwayIR

theorem getD_zero_of_head? {α : Type} (l : List α) (e d : α) (h : l.head? = some e) :
    l.getD 0 d = e := by
  obtain ⟨rest, hrest⟩ := head_cons_of_head? h
  rw [hrest]
  rfl

/-- Claim C2 (amended): along any sequence of public mutation operations that
never removes the entry block itself and never uses the entry block as the
before-insertion anchor, the block list stays non-empty with the entry block at
position 0.  (Unrestricted, the claim fails: `remove_block` happily removes the
entry block — see `C2_counterexample`.) -/
theorem C2_entry_block_stable (ops : List Op) (ctx : Context) (f e : Nat)
    (hops : ∀ op ∈ ops, protectsEntry e op)
    (h : (ctx.fnOf f).blocks.head? = some e) :
    ((applyOps ctx f ops).fnOf f).blocks.head? = some e ∧
    ((applyOps ctx f ops).fnOf f).blocks ≠ [] ∧
    get_entry_block (applyOps ctx f ops) f = e := by
  have hmain : ∀ (ops : List Op) (ctx : Context),
      (∀ op ∈ ops, protectsEntry e op) →
      (ctx.fnOf f).blocks.head? = some e →
      ((applyOps ctx f ops).fnOf f).blocks.head? = some e := by
    intro ops
    induction ops with
    | nil => intro ctx _ h; exact h
    | cons op rest ih =>
      intro ctx hops h
      show ((applyOps (applyOp ctx f op) f rest).fnOf f).blocks.head? = some e
      exact ih (applyOp ctx f op)
        (fun o ho => hops o (List.mem_cons_of_mem _ ho))
        (entryHead_applyOp ctx f e op (hops op (List.mem_cons_self _ _)) h)
  have hh := hmain ops ctx hops h
  refine ⟨hh, ?_, ?_⟩
  · intro hnil
    rw [hnil] at hh
    exact absurd hh (by simp)
  · exact getD_zero_of_head? _ _ _ hh

/-- Witness for C2 at a concrete input: on the fresh function (entry block 0), a
removal of a non-entry handle respects the restriction and the entry block stays
at position 0. -/
theorem C2_entry_block_stable_witness :
    (∀ op ∈ [Op.rmBlock 5], protectsEntry 0 op) ∧
    (ctxFreshFn.fnOf 0).blocks.head? = some 0 ∧
    (((applyOps ctxFreshFn 0 [Op.rmBlock 5]).fnOf 0).blocks.head? = some 0 ∧
     ((applyOps ctxFreshFn 0 [Op.rmBlock 5]).fnOf 0).blocks ≠ [] ∧
     get_entry_block (applyOps ctxFreshFn 0 [Op.rmBlock 5]) 0 = 0) := by
  have hops : ∀ op ∈ [Op.rmBlock 5], protectsEntry 0 op := by
    intro op hop
    rw [List.mem_singleton] at hop
    subst hop
    show (5 : Nat) ≠ 0
    decide
  exact ⟨hops, by decide,
    C2_entry_block_stable [Op.rmBlock 5] ctxFreshFn 0 0 hops (by decide)⟩

/-- A store holding a single empty module, ready for `Function.new`. -/
def ctxEmptyMod : Context := ⟨[], [], [], [], [⟨[]⟩]⟩

/-- The store produced by `Function.new` on `ctxEmptyMod` (one function "f" with
only its entry block). -/
def ctxF : Context :=
  ⟨[⟨"f", [], 0, [0], false, false, none, none, SMap.empty, 0⟩],
   [⟨"entry", 0, [], [], []⟩], [], [], [⟨[0]⟩]⟩

/-- Claim C2 as frozen is false at a concrete input: on a function freshly built
by `Function.new`, the public operation `remove_block` applied to the entry block
succeeds and leaves the block list empty — so a public operation can remove the
entry block, and the list does not stay non-empty. -/
theorem C2_counterexample :
    Function.new ctxEmptyMod 0 ("f") [] 0 none false false none = (ctxF, 0) ∧
    get_entry_block ctxF 0 = 0 ∧
    (remove_block ctxF 0 (get_entry_block ctxF 0)).2 = Except.ok () ∧
    ((remove_block ctxF 0 (get_entry_block ctxF 0)).1.fnOf 0).blocks = [] := by
  refine ⟨?_, by decide, by rfl, by decide⟩
  simp only [Function.new, Block.new]
  rw [get_unique_label_some_fst_eq, get_unique_label_some_snd_eq]
  rw [uniqueLabelGo_not_mem _ _ _ (by decide)]
  rfl

end SwayIR

namespace SwayIR

/-! ### Claim C7: insertion relative to a missing anchor -/

theorem get_unique_label_blocks (ctx : Context) (f : Nat) (hint : Option String) :
    (get_unique_label ctx f hint).1.blocks = ctx.blocks := rfl

theorem blkOf_Block_new (ctx : Context) (f : Nat) (label : Option String) (b : Nat)
    (hb : b < ctx.blocks.length) :
    (Block.new ctx f label).1.blkOf b = ctx.blkOf b := by
  show ((get_unique_label ctx f label).1.blocks ++
    [BlockContent.mk (get_unique_label ctx f label).2 f [] [] []]).getD b default =
    ctx.blocks.getD b default
  rw [get_unique_label_blocks]
  exact List.getD_append _ _ _ b hb

theorem Block_new_arena_grows (ctx : Context) (f : Nat) (label : Option String) :
    (Block.new ctx f label).1.blocks.length = ctx.blocks.length + 1 := by
  show ((get_unique_label ctx f label).1.blocks ++
    [BlockContent.mk (get_unique_label ctx f label).2 f [] [] []]).length = _
  rw [List.length_append, get_unique_label_blocks]
  rfl

theorem findIdx_none_of_not_mem (ctx : Context) (f other : Nat)
    (label : Option String) (hmem : other ∉ (ctx.fnOf f).blocks) :
    List.findIdx? (fun b => b == other) ((Block.new ctx f label).1.fnOf f).blocks
      = none := by
  rw [List.findIdx?_eq_none_iff]
  intro x hx
  rw [fn_blocks_Block_new] at hx
  simp only [beq_eq_false_iff_ne, ne_eq]
  intro he
  exact hmem (he ▸ hx)

/-- Claim C7: when the anchor block is not a member of this function's block list
(e.g. it belongs to a different function), both relative-insertion operations fail
with `MissingBlock` carrying the anchor's label; no function's block list changes,
and the freshly allocated block exists only as a new unreferenced arena entry. -/
theorem C7_missing_anchor (ctx : Context) (f other : Nat) (label : Option String)
    (hvalid : other < ctx.blocks.length)
    (hmem : other ∉ (ctx.fnOf f).blocks) :
    (create_block_before ctx f other label).2 =
      Except.error (IrError.MissingBlock (ctx.blkOf other).label) ∧
    (create_block_after ctx f other label).2 =
      Except.error (IrError.MissingBlock (ctx.blkOf other).label) ∧
    (∀ g, ((create_block_before ctx f other label).1.fnOf g).blocks =
      (ctx.fnOf g).blocks) ∧
    (∀ g, ((create_block_after ctx f other label).1.fnOf g).blocks =
      (ctx.fnOf g).blocks) ∧
    (create_block_before ctx f other label).1.blocks.length =
      ctx.blocks.length + 1 := by
  have hnone := findIdx_none_of_not_mem ctx f other label hmem
  refine ⟨?_, ?_, ?_, ?_, ?_⟩
  · rw [create_block_before_eq, hnone, blkOf_Block_new _ _ _ _ hvalid]
  · rw [create_block_after_eq, hnone, blkOf_Block_new _ _ _ _ hvalid]
  · intro g
    rw [create_block_before_eq, hnone]
    exact fn_blocks_Block_new ctx f label g
  · intro g
    rw [create_block_after_eq, hnone]
    exact fn_blocks_Block_new ctx f label g
  · rw [create_block_before_eq, hnone]
    exact Block_new_arena_grows ctx f label

/-- A store with two functions: "f" owns block 0, "g" owns block 1. -/
def ctxTwoFns : Context :=
  ⟨[⟨"f", [], 0, [0], false, false, none, none, SMap.empty, 0⟩,
    ⟨"g", [], 0, [1], false, false, none, none, SMap.empty, 0⟩],
   [⟨"entry", 0, [], [], []⟩, ⟨"entry", 1, [], [], []⟩], [], [], []⟩

/-- Witness for C7 at a concrete input: inserting into "f" relative to "g"'s
block fails with `MissingBlock` carrying that block's label and leaves every
block list unchanged. -/
theorem C7_missing_anchor_witness :
    1 < ctxTwoFns.blocks.length ∧ (1 : Nat) ∉ (ctxTwoFns.fnOf 0).blocks ∧
    ((create_block_before ctxTwoFns 0 1 none).2 =
      Except.error (IrError.MissingBlock (ctxTwoFns.blkOf 1).label) ∧
     (create_block_after ctxTwoFns 0 1 none).2 =
      Except.error (IrError.MissingBlock (ctxTwoFns.blkOf 1).label) ∧
     (∀ g, ((create_block_before ctxTwoFns 0 1 none).1.fnOf g).blocks =
       (ctxTwoFns.fnOf g).blocks) ∧
     (∀ g, ((create_block_after ctxTwoFns 0 1 none).1.fnOf g).blocks =
       (ctxTwoFns.fnOf g).blocks) ∧
     (create_block_before ctxTwoFns 0 1 none).1.blocks.length =
       ctxTwoFns.blocks.length + 1) :=
  ⟨by decide, by decide, C7_missing_anchor ctxTwoFns 0 1 none (by decide) (by decide)⟩

/-! ### Claim C10: replace_values with a starting block outside the function -/

/-- Claim C10: when `starting_block` is not an element of the function's block
list, the skip loop consumes the whole iterator and neither `replace_values` nor
`replace_value` changes anything: the store is returned unchanged (in particular
every instruction in every block of the function is unchanged). -/
theorem C10_replace_values_missing_start (ctx : Context) (f : Nat)
    (m : List (Nat × Nat)) (old_val new_val sb : Nat)
    (h : sb ∉ (ctx.fnOf f).blocks) :
    replace_values ctx f m (some sb) = ctx ∧
    replace_value ctx f old_val new_val (some sb) = ctx := by
  have hdrop : (ctx.fnOf f).blocks.dropWhile (fun b => !(b == sb)) = [] := by
    rw [List.dropWhile_eq_nil_iff]
    intro x hx
    simp only [Bool.not_eq_true', beq_eq_false_iff_ne, ne_eq]
    intro he
    exact h (he ▸ hx)
  constructor
  · show ((ctx.fnOf f).blocks.dropWhile (fun b => !(b == sb))).foldl
      (fun c b => Block.replace_values c b m) ctx = ctx
    rw [hdrop]
    rfl
  · show ((ctx.fnOf f).blocks.dropWhile (fun b => !(b == sb))).foldl
      (fun c b => Block.replace_values c b [(old_val, new_val)]) ctx = ctx
    rw [hdrop]
    rfl

/-- Witness for C10 at a concrete input: block 7 is not in the fresh function's
list, so the replacement pass is a no-op. -/
theorem C10_replace_values_missing_start_witness :
    (7 : Nat) ∉ (ctxFreshFn.fnOf 0).blocks ∧
    (replace_values ctxFreshFn 0 [(3, 4)] (some 7) = ctxFreshFn ∧
     replace_value ctxFreshFn 0 3 4 (some 7) = ctxFreshFn) :=
  ⟨by decide, C10_replace_values_missing_start ctxFreshFn 0 [(3, 4)] 3 4 7 (by decide)⟩

end SwayIR

namespace SwayIR

/-! ### Claim C5: `new_unique_local_var` -/

theorem contains_false_get_none (m : SMap Nat) (k : String)
    (h : ¬ m.contains k = true) : m.get k = none := by
  unfold SMap.contains at h
  exact Option.not_isSome_iff_eq_none.mp (by simpa using h)

theorem chooseUniqueName_free (m : SMap Nat) (name : String) :
    m.get (chooseUniqueName m name) = none := by
  unfold chooseUniqueName
  by_cases hc : m.contains name = true
  · rw [if_pos hc]
    exact Nat.find_spec (exists_free_name m name)
  · rw [if_neg hc]
    exact contains_false_get_none m name hc

theorem new_unique_fst (ctx : Context) (f : Nat) (name : String) (ty : Nat)
    (init : Option Nat) :
    (new_unique_local_var ctx f name ty init).1 =
      (new_local_var ctx f (chooseUniqueName (ctx.fnOf f).local_storage name)
        ty init).1 := rfl

theorem new_unique_snd (ctx : Context) (f : Nat) (name : String) (ty : Nat)
    (init : Option Nat) :
    (new_unique_local_var ctx f name ty init).2 = ctx.local_vars.length := by
  show (match (new_local_var ctx f
      (chooseUniqueName (ctx.fnOf f).local_storage name) ty init).2 with
    | Except.ok v => v
    | Except.error _ => 0) = ctx.local_vars.length
  rw [new_local_var_snd, chooseUniqueName_free]

/-- The behaviour of `new_unique_local_var` needed throughout: it inserts the
fresh arena handle under a name that was previously free, leaves every other
binding alone, and extends the arena by one. -/
theorem new_unique_spec (ctx : Context) (f : Nat) (name : String) (ty : Nat)
    (init : Option Nat) (hf : f < ctx.functions.length) :
    ∃ K : String,
      (ctx.fnOf f).local_storage.get K = none ∧
      (new_unique_local_var ctx f name ty init).2 = ctx.local_vars.length ∧
      ((new_unique_local_var ctx f name ty init).1.fnOf f).local_storage.get K =
        some ctx.local_vars.length ∧
      (∀ k, k ≠ K →
        ((new_unique_local_var ctx f name ty init).1.fnOf f).local_storage.get k =
          (ctx.fnOf f).local_storage.get k) ∧
      (new_unique_local_var ctx f name ty init).1.local_vars.length =
        ctx.local_vars.length + 1 ∧
      (new_unique_local_var ctx f name ty init).1.functions.length =
        ctx.functions.length := by
  refine ⟨chooseUniqueName (ctx.fnOf f).local_storage name,
    chooseUniqueName_free _ _, new_unique_snd .., ?_, ?_, ?_, ?_⟩
  · rw [new_unique_fst]
    exact new_local_var_get_self ctx f _ ty init hf
  · intro k hk
    rw [new_unique_fst]
    exact new_local_var_get_ne ctx f _ ty init hf k hk
  · rw [new_unique_fst, new_local_var_local_vars, List.length_append]
    rfl
  · rw [new_unique_fst]
    exact new_local_var_functions_length ctx f _ ty init

/-- Claim C5: `new_unique_local_var` always returns a (fresh) handle — the
`.unwrap()` never fires — inserting under the hint itself when it is free, and
otherwise under the first candidate `name ++ n` (n = 0, 1, 2, …) that is not
already a key of the table. -/
theorem C5_new_unique_local_var (ctx : Context) (f : Nat) (name : String) (ty : Nat)
    (init : Option Nat) (hf : f < ctx.functions.length) :
    (new_unique_local_var ctx f name ty init).2 = ctx.local_vars.length ∧
    ((ctx.fnOf f).local_storage.get name = none →
      ((new_unique_local_var ctx f name ty init).1.fnOf f).local_storage.get name =
        some (new_unique_local_var ctx f name ty init).2) ∧
    (∀ v, (ctx.fnOf f).local_storage.get name = some v →
      ∃ n : Nat,
        (ctx.fnOf f).local_storage.get (name ++ Nat.repr n) = none ∧
        (∀ j < n, (((ctx.fnOf f).local_storage.get (name ++ Nat.repr j)).isSome)) ∧
        ((new_unique_local_var ctx f name ty init).1.fnOf f).local_storage.get
          (name ++ Nat.repr n) = some (new_unique_local_var ctx f name ty init).2) := by
  refine ⟨new_unique_snd .., ?_, ?_⟩
  · intro hfree
    have hK : chooseUniqueName (ctx.fnOf f).local_storage name = name := by
      unfold chooseUniqueName
      rw [if_neg]
      unfold SMap.contains
      rw [hfree]
      simp
    rw [new_unique_snd, new_unique_fst, hK]
    exact new_local_var_get_self ctx f name ty init hf
  · intro v hv
    have hc : (ctx.fnOf f).local_storage.contains name = true := by
      unfold SMap.contains
      rw [hv]
      rfl
    have hK : chooseUniqueName (ctx.fnOf f).local_storage name =
        name ++ Nat.repr (freeNameIdx (ctx.fnOf f).local_storage name) := by
      unfold chooseUniqueName
      rw [if_pos hc]
    refine ⟨freeNameIdx (ctx.fnOf f).local_storage name,
      Nat.find_spec (exists_free_name (ctx.fnOf f).local_storage name), ?_, ?_⟩
    · intro j hj
      have := Nat.find_min (exists_free_name (ctx.fnOf f).local_storage name) hj
      exact Option.ne_none_iff_isSome.mp this
    · rw [new_unique_snd, new_unique_fst, hK]
      exact new_local_var_get_self ctx f
        (name ++ Nat.repr (freeNameIdx (ctx.fnOf f).local_storage name)) ty init hf

/-- Witness for C5 at a concrete input: inserting ("x" is taken, "x0" is free)
into `ctxOneLocal`'s function. -/
theorem C5_new_unique_local_var_witness :
    0 < ctxOneLocal.functions.length ∧
    ((new_unique_local_var ctxOneLocal 0 ("x") 3 none).2 =
        ctxOneLocal.local_vars.length ∧
     ((ctxOneLocal.fnOf 0).local_storage.get ("x") = none →
       ((new_unique_local_var ctxOneLocal 0 ("x") 3 none).1.fnOf
         0).local_storage.get ("x") =
         some (new_unique_local_var ctxOneLocal 0 ("x") 3 none).2) ∧
     (∀ v, (ctxOneLocal.fnOf 0).local_storage.get ("x") = some v →
       ∃ n : Nat,
         (ctxOneLocal.fnOf 0).local_storage.get ("x" ++ Nat.repr n) = none ∧
         (∀ j < n,
           (((ctxOneLocal.fnOf 0).local_storage.get ("x" ++ Nat.repr j)).isSome)) ∧
         ((new_unique_local_var ctxOneLocal 0 ("x") 3 none).1.fnOf
           0).local_storage.get ("x" ++ Nat.repr n) =
           some (new_unique_local_var ctxOneLocal 0 ("x") 3 none).2)) :=
  ⟨by decide, C5_new_unique_local_var ctxOneLocal 0 ("x") 3 none (by decide)⟩

end SwayIR

namespace SwayIR

/-! ### Claim C6: `merge_locals_from` -/

theorem hget_cons (k' v : Nat) (m : List (Nat × Nat)) (k : Nat) :
    hget ((k', v) :: m) k = if k = k' then some v else hget m k := rfl

theorem hget_nil (k : Nat) : hget [] k = none := rfl

theorem mergeGo_spec (f : Nat) :
    ∀ (l : List (String × Nat × LocalVarContent)) (ctx : Context)
      (vm : List (Nat × Nat)),
      f < ctx.functions.length →
      ((mergeGo f ctx l vm).1.functions.length = ctx.functions.length ∧
       ctx.local_vars.length ≤ (mergeGo f ctx l vm).1.local_vars.length) ∧
      (∀ k v, (ctx.fnOf f).local_storage.get k = some v →
        ((mergeGo f ctx l vm).1.fnOf f).local_storage.get k = some v) ∧
      (∀ o w, hget (mergeGo f ctx l vm).2 o = some w →
        hget vm o = some w ∨
          (o ∈ l.map (fun t => t.2.1) ∧ ctx.local_vars.length ≤ w ∧
            ∃ k, ((mergeGo f ctx l vm).1.fnOf f).local_storage.get k = some w)) ∧
      (∀ o, (hget (mergeGo f ctx l vm).2 o).isSome ↔
        ((hget vm o).isSome ∨ o ∈ l.map (fun t => t.2.1))) ∧
      ((∀ o w, hget vm o = some w → w < ctx.local_vars.length) →
        (∀ o1 o2 w, hget vm o1 = some w → hget vm o2 = some w → o1 = o2) →
        ((∀ o w, hget (mergeGo f ctx l vm).2 o = some w →
            w < (mergeGo f ctx l vm).1.local_vars.length) ∧
         (∀ o1 o2 w, hget (mergeGo f ctx l vm).2 o1 = some w →
            hget (mergeGo f ctx l vm).2 o2 = some w → o1 = o2))) := by
  intro l
  induction l with
  | nil =>
    intro ctx vm hf
    refine ⟨⟨rfl, le_refl _⟩, fun k v h => h, fun o w h => Or.inl h, fun o => ?_,
      fun hlt hinj => ⟨hlt, hinj⟩⟩
    simp [mergeGo]
  | cons hd tl ih =>
    intro ctx vm hf
    obtain ⟨name, old, content⟩ := hd
    obtain ⟨K, hKfree, hsnd, hKpost, hother, hlv, hflen⟩ :=
      new_unique_spec ctx f name content.ty content.initializer hf
    have hf1 : f < (new_unique_local_var ctx f name content.ty
        content.initializer).1.functions.length := by
      rw [hflen]; exact hf
    have hpres : ∀ k v, (ctx.fnOf f).local_storage.get k = some v →
        ((new_unique_local_var ctx f name content.ty
          content.initializer).1.fnOf f).local_storage.get k = some v := by
      intro k v h
      by_cases hkK : k = K
      · rw [hkK] at h
        rw [h] at hKfree
        exact absurd hKfree (by simp)
      · rw [hother k hkK]
        exact h
    obtain ⟨⟨ihflen, ihlv⟩, iha, ihb, ihc, ihd⟩ :=
      ih (new_unique_local_var ctx f name content.ty content.initializer).1
        ((old, (new_unique_local_var ctx f name content.ty
          content.initializer).2) :: vm) hf1
    have hstep : mergeGo f ctx ((name, old, content) :: tl) vm =
        mergeGo f (new_unique_local_var ctx f name content.ty
          content.initializer).1 tl
          ((old, (new_unique_local_var ctx f name content.ty
            content.initializer).2) :: vm) := rfl
    rw [hstep]
    refine ⟨⟨by rw [ihflen, hflen], by omega⟩, ?_, ?_, ?_, ?_⟩
    · intro k v h
      exact iha k v (hpres k v h)
    · intro o w h
      rcases ihb o w h with hvm | ⟨hmem, hle, k, hk⟩
      · rw [hget_cons] at hvm
        by_cases ho : o = old
        · rw [if_pos ho] at hvm
          right
          refine ⟨by simp [ho], ?_, K, ?_⟩
          · rw [hsnd] at hvm
            injection hvm with hvm'
            omega
          · rw [hsnd] at hvm
            injection hvm with hvm'
            rw [← hvm']
            exact iha K ctx.local_vars.length hKpost
        · rw [if_neg ho] at hvm
          exact Or.inl hvm
      · right
        refine ⟨by simp [hmem], by omega, k, hk⟩
    · intro o
      rw [ihc o, hget_cons]
      by_cases ho : o = old
      · rw [if_pos ho]
        simp [ho]
      · rw [if_neg ho]
        simp [ho]
    · intro hlt hinj
      apply ihd
      · intro o w h
        rw [hget_cons] at h
        by_cases ho : o = old
        · rw [if_pos ho] at h
          rw [hsnd] at h
          injection h with h'
          omega
        · rw [if_neg ho] at h
          have := hlt o w h
          omega
      · intro o1 o2 w h1 h2
        rw [hget_cons] at h1 h2
        by_cases ho1 : o1 = old <;> by_cases ho2 : o2 = old
        · rw [ho1, ho2]
        · rw [if_pos ho1] at h1
          rw [if_neg ho2] at h2
          rw [hsnd] at h1
          injection h1 with h1'
          have := hlt o2 w h2
          omega
        · rw [if_neg ho1] at h1
          rw [if_pos ho2] at h2
          rw [hsnd] at h2
          injection h2 with h2'
          have := hlt o1 w h1
          omega
        · rw [if_neg ho1] at h1
          rw [if_neg ho2] at h2
          exact hinj o1 o2 w h1 h2

end SwayIR

namespace SwayIR

/-- Claim C6: the mapping returned by `merge_locals_from` has as keys exactly the
other function's local handles at call time, is injective (a bijection onto its
image), maps onto handles that are newly inserted into this function's table
(present after the call under some name, and not a value of the table before the
call), and leaves this function's pre-existing bindings untouched. -/
theorem C6_merge_locals_from (ctx : Context) (f other : Nat)
    (hf : f < ctx.functions.length)
    (hvalid : ∀ k v, (ctx.fnOf f).local_storage.get k = some v →
      v < ctx.local_vars.length) :
    (∀ o, (hget (merge_locals_from ctx f other).2 o).isSome ↔
      o ∈ (ctx.fnOf other).local_storage.entries.map (fun p => p.2)) ∧
    (∀ o1 o2 w, hget (merge_locals_from ctx f other).2 o1 = some w →
      hget (merge_locals_from ctx f other).2 o2 = some w → o1 = o2) ∧
    (∀ o w, hget (merge_locals_from ctx f other).2 o = some w →
      (∃ k, ((merge_locals_from ctx f other).1.fnOf f).local_storage.get k = some w) ∧
      (∀ k, (ctx.fnOf f).local_storage.get k ≠ some w)) ∧
    (∀ k v, (ctx.fnOf f).local_storage.get k = some v →
      ((merge_locals_from ctx f other).1.fnOf f).local_storage.get k = some v) := by
  obtain ⟨⟨hflen, hlv⟩, hpre, hchar, hdom, hinjd⟩ := mergeGo_spec f
    ((ctx.fnOf other).local_storage.entries.map
      (fun p => (p.1, p.2, ctx.local_vars.getD p.2 default))) ctx [] hf
  have hmap : (((ctx.fnOf other).local_storage.entries.map
      (fun p => (p.1, p.2, ctx.local_vars.getD p.2 default))).map
        (fun t => t.2.1)) =
      (ctx.fnOf other).local_storage.entries.map (fun p => p.2) := by
    rw [List.map_map]
    rfl
  have hm : merge_locals_from ctx f other =
      mergeGo f ctx ((ctx.fnOf other).local_storage.entries.map
        (fun p => (p.1, p.2, ctx.local_vars.getD p.2 default))) [] := rfl
  rw [hm]
  obtain ⟨hwlt, hinj⟩ := hinjd
    (by intro o w h; rw [hget_nil] at h; exact absurd h (by simp))
    (by intro o1 o2 w h1 _; rw [hget_nil] at h1; exact absurd h1 (by simp))
  refine ⟨?_, hinj, ?_, hpre⟩
  · intro o
    rw [hdom o, hget_nil, hmap]
    simp
  · intro o w h
    rcases hchar o w h with hvm | ⟨_, hle, k, hk⟩
    · rw [hget_nil] at hvm
      exact absurd hvm (by simp)
    · refine ⟨⟨k, hk⟩, ?_⟩
      intro k' hk'
      have := hvalid k' w hk'
      omega

/-- Two functions "F" and "G", each with a single local "tmp" bound to the only
arena handle 0. -/
def ctxMerge : Context :=
  ⟨[⟨"F", [], 0, [], false, false, none, none,
      ⟨[(("tmp" : String), 0)], by simp⟩, 0⟩,
    ⟨"G", [], 0, [], false, false, none, none,
      ⟨[(("tmp" : String), 0)], by simp⟩, 0⟩],
   [], [], [⟨5, none⟩], []⟩

/-- Witness for C6 at a concrete input: merging "G"'s locals into "F". -/
theorem C6_merge_locals_from_witness :
    0 < ctxMerge.functions.length ∧
    (∀ k v, (ctxMerge.fnOf 0).local_storage.get k = some v →
      v < ctxMerge.local_vars.length) ∧
    ((∀ o, (hget (merge_locals_from ctxMerge 0 1).2 o).isSome ↔
      o ∈ (ctxMerge.fnOf 1).local_storage.entries.map (fun p => p.2)) ∧
     (∀ o1 o2 w, hget (merge_locals_from ctxMerge 0 1).2 o1 = some w →
      hget (merge_locals_from ctxMerge 0 1).2 o2 = some w → o1 = o2) ∧
     (∀ o w, hget (merge_locals_from ctxMerge 0 1).2 o = some w →
      (∃ k, ((merge_locals_from ctxMerge 0 1).1.fnOf 0).local_storage.get k
        = some w) ∧
      (∀ k, (ctxMerge.fnOf 0).local_storage.get k ≠ some w)) ∧
     (∀ k v, (ctxMerge.fnOf 0).local_storage.get k = some v →
      ((merge_locals_from ctxMerge 0 1).1.fnOf 0).local_storage.get k = some v)) := by
  have hval : ∀ (k : String) (v : Nat),
      (ctxMerge.fnOf 0).local_storage.get k = some v →
      v < ctxMerge.local_vars.length := by
    intro k v h
    have hg : (ctxMerge.fnOf 0).local_storage.get k =
        if k = ("tmp") then some 0 else none := by
      show lookupKey k [(("tmp" : String), 0)] = _
      rw [lookupKey_cons]
      rfl
    rw [hg] at h
    by_cases hk : k = ("tmp")
    · rw [if_pos hk] at h
      injection h with h'
      show v < 1
      omega
    · rw [if_neg hk] at h
      exact absurd h (by simp)
  exact ⟨by decide, hval, C6_merge_locals_from ctxMerge 0 1 (by decide) hval⟩

end SwayIR

namespace SwayIR

/-! ### Claim C8: construction -/

theorem synthArgs_spec (entryB : Nat) :
    ∀ (args : List (String × Nat × Bool × Option Nat)) (ctx : Context) (idx : Nat),
      (synthArgs entryB ctx args idx).1.functions = ctx.functions ∧
      (synthArgs entryB ctx args idx).1.blocks = ctx.blocks ∧
      (synthArgs entryB ctx args idx).1.values.length =
        ctx.values.length + args.length ∧
      (∀ j, j < ctx.values.length →
        (synthArgs entryB ctx args idx).1.valOf j = ctx.valOf j) ∧
      (synthArgs entryB ctx args idx).2.length = args.length ∧
      (∀ i, i < args.length →
        (synthArgs entryB ctx args idx).2.getD i ("", 0) =
          ((args.getD i ("", 0, false, none)).1, ctx.values.length + i) ∧
        (synthArgs entryB ctx args idx).1.valOf (ctx.values.length + i) =
          ⟨ValueDatum.argument ⟨entryB, idx + i,
            (args.getD i ("", 0, false, none)).2.1,
            (args.getD i ("", 0, false, none)).2.2.1⟩,
            (args.getD i ("", 0, false, none)).2.2.2⟩) := by
  intro args
  induction args with
  | nil =>
    intro ctx idx
    exact ⟨rfl, rfl, rfl, fun j _ => rfl, rfl, fun i hi => absurd hi (by simp)⟩
  | cons hd rest ih =>
    intro ctx idx
    obtain ⟨nm, ty, byref, amd⟩ := hd
    obtain ⟨ihfns, ihblocks, ihvlen, ihvpres, ihlen, ihat⟩ :=
      ih { ctx with values := ctx.values ++
        [⟨ValueDatum.argument ⟨entryB, idx, ty, byref⟩, amd⟩] } (idx + 1)
    have hrec : ({ ctx with values := ctx.values ++
        [⟨ValueDatum.argument ⟨entryB, idx, ty, byref⟩, amd⟩] } :
          Context).values.length = ctx.values.length + 1 := by
      show (ctx.values ++ [_]).length = _
      rw [List.length_append]
      rfl
    have hstep : synthArgs entryB ctx ((nm, ty, byref, amd) :: rest) idx =
        ((synthArgs entryB { ctx with values := ctx.values ++
            [⟨ValueDatum.argument ⟨entryB, idx, ty, byref⟩, amd⟩] } rest (idx + 1)).1,
          (nm, ctx.values.length) ::
          (synthArgs entryB { ctx with values := ctx.values ++
            [⟨ValueDatum.argument ⟨entryB, idx, ty, byref⟩, amd⟩] } rest (idx + 1)).2) :=
      rfl
    rw [hstep]
    refine ⟨ihfns, ihblocks, ?_, ?_, ?_, ?_⟩
    · rw [ihvlen, hrec]
      simp only [List.length_cons]
      omega
    · intro j hj
      rw [ihvpres j (by rw [hrec]; omega)]
      show ({ ctx with values := ctx.values ++
        [⟨ValueDatum.argument ⟨entryB, idx, ty, byref⟩, amd⟩] } :
          Context).values.getD j default = ctx.values.getD j default
      exact List.getD_append _ _ _ j hj
    · simp only [List.length_cons, ihlen]
    · intro i hi
      cases i with
      | zero =>
        constructor
        · show (nm, ctx.values.length) = (nm, ctx.values.length + 0)
          rw [Nat.add_zero]
        · show (synthArgs entryB { ctx with values := ctx.values ++
            [⟨ValueDatum.argument ⟨entryB, idx, ty, byref⟩, amd⟩] } rest
              (idx + 1)).1.valOf (ctx.values.length + 0) = _
          rw [Nat.add_zero (ctx.values.length)]
          have hv := ihvpres ctx.values.length (by rw [hrec]; omega)
          rw [hv]
          show ({ ctx with values := ctx.values ++
            [⟨ValueDatum.argument ⟨entryB, idx, ty, byref⟩, amd⟩] } :
              Context).values.getD ctx.values.length default = _
          rw [getD_append_self]
          show (⟨ValueDatum.argument ⟨entryB, idx + 0, ty, byref⟩, amd⟩ :
            ValueContent) = _
          rfl
      | succ i' =>
        have hi' : i' < rest.length := by
          simp only [List.length_cons] at hi
          omega
        obtain ⟨h1, h2⟩ := ihat i' hi'
        constructor
        · show (synthArgs entryB { ctx with values := ctx.values ++
            [⟨ValueDatum.argument ⟨entryB, idx, ty, byref⟩, amd⟩] } rest
              (idx + 1)).2.getD i' ("", 0) = _
          rw [h1, hrec]
          show (_, ctx.values.length + 1 + i') = (_, ctx.values.length + (i' + 1))
          rw [show ctx.values.length + 1 + i' = ctx.values.length + (i' + 1) from by omega]
          rfl
        · show (synthArgs entryB { ctx with values := ctx.values ++
            [⟨ValueDatum.argument ⟨entryB, idx, ty, byref⟩, amd⟩] } rest
              (idx + 1)).1.valOf (ctx.values.length + (i' + 1)) = _
          rw [hrec] at h2
          rw [show ctx.values.length + (i' + 1) = ctx.values.length + 1 + i'
            from by omega]
          rw [h2]
          show (⟨ValueDatum.argument ⟨entryB, idx + 1 + i',
            (rest.getD i' ("", 0, false, none)).2.1,
            (rest.getD i' ("", 0, false, none)).2.2.1⟩,
            (rest.getD i' ("", 0, false, none)).2.2.2⟩ : ValueContent) = _
          rw [show idx + 1 + i' = idx + (i' + 1) from by omega]
          rfl

end SwayIR

namespace SwayIR

theorem blkOf_modifyBlk_self (ctx : Context) (b : Nat)
    (g : BlockContent → BlockContent) (hb : b < ctx.blocks.length) :
    (ctx.modifyBlk b g).blkOf b = g (ctx.blkOf b) :=
  getD_set_self ctx.blocks b _ default hb

theorem blkOf_of_blocks_eq {ctx ctx' : Context} (h : ctx'.blocks = ctx.blocks)
    (b : Nat) : ctx'.blkOf b = ctx.blkOf b := by
  show ctx'.blocks.getD b default = ctx.blocks.getD b default
  rw [h]

section FnNew

variable (ctx : Context) (module : Nat) (name : String)
  (args : List (String × Nat × Bool × Option Nat)) (rt : Nat) (sel : Option Nat)
  (pub ent : Bool) (md : Option Nat)

/-- The function content allocated by `Function.new` before any wiring. -/
def fnContent0 : FunctionContent :=
  ⟨name, [], rt, [], pub, ent, sel, md, SMap.empty, 0⟩

/-- The store after allocating the content and registering it with the module. -/
def fnCtx2 : Context :=
  { ctx with
    functions := ctx.functions ++ [fnContent0 name rt sel pub ent md],
    modules := ctx.modules.set module
      ⟨(ctx.modules.getD module default).functions ++ [ctx.functions.length]⟩ }

/-- The entry-block allocation step of `Function.new`. -/
def fnRB : Context × Nat :=
  Block.new (fnCtx2 ctx module name rt sel pub ent md) ctx.functions.length
    (some ("entry"))

/-- The store after appending the entry block to the function's list. -/
def fnCtx3 : Context :=
  (fnRB ctx module name rt sel pub ent md).1.modifyFn ctx.functions.length
    (fun fc => { fc with
      blocks := fc.blocks ++ [(fnRB ctx module name rt sel pub ent md).2] })

/-- The argument-synthesis step of `Function.new`. -/
def fnRA : Context × List (String × Nat) :=
  synthArgs (fnRB ctx module name rt sel pub ent md).2
    (fnCtx3 ctx module name rt sel pub ent md) args 0

/-- The final store of `Function.new`: arguments installed on the function and as
the entry block's parameters. -/
def fnCtx5 : Context :=
  ((fnRA ctx module name args rt sel pub ent md).1.modifyFn ctx.functions.length
    (fun fc => { fc with
      arguments := (fnRA ctx module name args rt sel pub ent md).2 })).modifyBlk
    (fnRB ctx module name rt sel pub ent md).2
    (fun bc => { bc with
      args := (fnRA ctx module name args rt sel pub ent md).2.map Prod.snd })

theorem Function_new_eq :
    Function.new ctx module name args rt sel pub ent md =
      (fnCtx5 ctx module name args rt sel pub ent md, ctx.functions.length) := rfl

end FnNew

end SwayIR

namespace SwayIR

section FnNewFacts

variable (ctx : Context) (module : Nat) (name : String)
  (args : List (String × Nat × Bool × Option Nat)) (rt : Nat) (sel : Option Nat)
  (pub ent : Bool) (md : Option Nat)

theorem fnCtx2_fnOf_self :
    (fnCtx2 ctx module name rt sel pub ent md).fnOf ctx.functions.length =
      fnContent0 name rt sel pub ent md :=
  getD_append_self ctx.functions _ default

theorem fnCtx2_labels :
    labelsOf (fnCtx2 ctx module name rt sel pub ent md) ctx.functions.length = [] := by
  unfold labelsOf
  rw [fnCtx2_fnOf_self]
  rfl

theorem fnRB_snd :
    (fnRB ctx module name rt sel pub ent md).2 = ctx.blocks.length := rfl

theorem fnRB_label :
    (get_unique_label (fnCtx2 ctx module name rt sel pub ent md)
      ctx.functions.length (some ("entry"))).2 = ("entry") := by
  rw [get_unique_label_some_snd_eq,
    uniqueLabelGo_not_mem _ _ _ (by rw [fnCtx2_labels]; simp)]

theorem fnRB_blkOf_new :
    (fnRB ctx module name rt sel pub ent md).1.blkOf
      (fnRB ctx module name rt sel pub ent md).2 =
      ⟨"entry", ctx.functions.length, [], [], []⟩ := by
  show ((get_unique_label (fnCtx2 ctx module name rt sel pub ent md)
      ctx.functions.length (some ("entry"))).1.blocks ++
    [BlockContent.mk (get_unique_label (fnCtx2 ctx module name rt sel pub ent md)
      ctx.functions.length (some ("entry"))).2 ctx.functions.length [] [] []]).getD
      ((get_unique_label (fnCtx2 ctx module name rt sel pub ent md)
        ctx.functions.length (some ("entry"))).1.blocks.length) default = _
  rw [getD_append_self, fnRB_label]

theorem fnRB_functions_length :
    (fnRB ctx module name rt sel pub ent md).1.functions.length =
      ctx.functions.length + 1 := by
  show ((fnCtx2 ctx module name rt sel pub ent md).functions.set _ _).length = _
  rw [List.length_set]
  show (ctx.functions ++ [_]).length = _
  rw [List.length_append]
  rfl

theorem fnRB_blocks_length :
    (fnRB ctx module name rt sel pub ent md).1.blocks.length =
      ctx.blocks.length + 1 := by
  show ((get_unique_label (fnCtx2 ctx module name rt sel pub ent md)
      ctx.functions.length (some ("entry"))).1.blocks ++ [_]).length = _
  rw [List.length_append]
  rfl

theorem fnCtx3_fn_blocks :
    ((fnCtx3 ctx module name rt sel pub ent md).fnOf ctx.functions.length).blocks =
      [(fnRB ctx module name rt sel pub ent md).2] := by
  unfold fnCtx3
  rw [fnOf_modifyFn_self _ _ _ (by rw [fnRB_functions_length]; omega)]
  show ((fnRB ctx module name rt sel pub ent md).1.fnOf
    ctx.functions.length).blocks ++ [(fnRB ctx module name rt sel pub ent md).2] = _
  unfold fnRB
  rw [fn_blocks_Block_new, fnCtx2_fnOf_self]
  rfl

theorem fnCtx3_functions_length :
    (fnCtx3 ctx module name rt sel pub ent md).functions.length =
      ctx.functions.length + 1 := by
  unfold fnCtx3
  rw [modifyFn_functions_length, fnRB_functions_length]

theorem fnCtx3_blocks :
    (fnCtx3 ctx module name rt sel pub ent md).blocks =
      (fnRB ctx module name rt sel pub ent md).1.blocks := rfl

theorem fnCtx3_values :
    (fnCtx3 ctx module name rt sel pub ent md).values = ctx.values := rfl

theorem fnCtx3_blkOf_entry :
    (fnCtx3 ctx module name rt sel pub ent md).blkOf
      (fnRB ctx module name rt sel pub ent md).2 =
      ⟨"entry", ctx.functions.length, [], [], []⟩ := by
  unfold fnCtx3
  rw [blkOf_modifyFn]
  exact fnRB_blkOf_new ctx module name rt sel pub ent md

end FnNewFacts

end SwayIR

namespace SwayIR

theorem fnOf_modifyBlk (ctx : Context) (b : Nat) (g : BlockContent → BlockContent)
    (x : Nat) : (ctx.modifyBlk b g).fnOf x = ctx.fnOf x := rfl

/-- Claim C8: `Function.new` with k argument tuples yields `num_args = k`; the
block list is exactly the entry block, which is labeled "entry"; the entry
block's parameter list equals the argument value list positionally; and the i-th
argument pair carries the i-th tuple's name together with a fresh value handle
whose content is a block parameter of the entry block at positional index i with
the tuple's type, by-ref flag and metadata. -/
theorem C8_function_new (ctx : Context) (module : Nat) (name : String)
    (args : List (String × Nat × Bool × Option Nat)) (rt : Nat) (sel : Option Nat)
    (pub ent : Bool) (md : Option Nat) :
    num_args (Function.new ctx module name args rt sel pub ent md).1
      (Function.new ctx module name args rt sel pub ent md).2 = args.length ∧
    ((Function.new ctx module name args rt sel pub ent md).1.fnOf
      (Function.new ctx module name args rt sel pub ent md).2).blocks =
      [get_entry_block (Function.new ctx module name args rt sel pub ent md).1
        (Function.new ctx module name args rt sel pub ent md).2] ∧
    ((Function.new ctx module name args rt sel pub ent md).1.blkOf
      (get_entry_block (Function.new ctx module name args rt sel pub ent md).1
        (Function.new ctx module name args rt sel pub ent md).2)).label =
      ("entry") ∧
    ((Function.new ctx module name args rt sel pub ent md).1.blkOf
      (get_entry_block (Function.new ctx module name args rt sel pub ent md).1
        (Function.new ctx module name args rt sel pub ent md).2)).args =
      ((Function.new ctx module name args rt sel pub ent md).1.fnOf
        (Function.new ctx module name args rt sel pub ent md).2).arguments.map
        Prod.snd ∧
    (∀ i, i < args.length →
      ((Function.new ctx module name args rt sel pub ent md).1.fnOf
        (Function.new ctx module name args rt sel pub ent md).2).arguments.getD i
        ("", 0) =
        ((args.getD i ("", 0, false, none)).1, ctx.values.length + i) ∧
      (Function.new ctx module name args rt sel pub ent md).1.valOf
        (ctx.values.length + i) =
        ⟨ValueDatum.argument
          ⟨get_entry_block (Function.new ctx module name args rt sel pub ent md).1
            (Function.new ctx module name args rt sel pub ent md).2, i,
            (args.getD i ("", 0, false, none)).2.1,
            (args.getD i ("", 0, false, none)).2.2.1⟩,
          (args.getD i ("", 0, false, none)).2.2.2⟩) := by
  obtain ⟨sfns, sblocks, svlen, svpres, slen, sat⟩ :=
    synthArgs_spec (fnRB ctx module name rt sel pub ent md).2 args
      (fnCtx3 ctx module name rt sel pub ent md) 0
  have sfns' : (fnRA ctx module name args rt sel pub ent md).1.functions =
      (fnCtx3 ctx module name rt sel pub ent md).functions := sfns
  have sblocks' : (fnRA ctx module name args rt sel pub ent md).1.blocks =
      (fnCtx3 ctx module name rt sel pub ent md).blocks := sblocks
  have slen' : (fnRA ctx module name args rt sel pub ent md).2.length =
      args.length := slen
  have hlen4 : ctx.functions.length <
      (fnRA ctx module name args rt sel pub ent md).1.functions.length := by
    rw [sfns', fnCtx3_functions_length]
    omega
  have hfn5 : (fnCtx5 ctx module name args rt sel pub ent md).fnOf
      ctx.functions.length =
      { (fnCtx3 ctx module name rt sel pub ent md).fnOf ctx.functions.length with
        arguments := (fnRA ctx module name args rt sel pub ent md).2 } := by
    unfold fnCtx5
    rw [fnOf_modifyBlk, fnOf_modifyFn_self _ _ _ hlen4,
      fnOf_of_functions_eq sfns']
  have hblocks5 : ((fnCtx5 ctx module name args rt sel pub ent md).fnOf
      ctx.functions.length).blocks =
      [(fnRB ctx module name rt sel pub ent md).2] := by
    rw [hfn5]
    show ((fnCtx3 ctx module name rt sel pub ent md).fnOf
      ctx.functions.length).blocks = _
    exact fnCtx3_fn_blocks ctx module name rt sel pub ent md
  have hentry : get_entry_block (fnCtx5 ctx module name args rt sel pub ent md)
      ctx.functions.length = (fnRB ctx module name rt sel pub ent md).2 := by
    unfold get_entry_block
    rw [hblocks5]
    rfl
  have hblk5 : (fnCtx5 ctx module name args rt sel pub ent md).blkOf
      (fnRB ctx module name rt sel pub ent md).2 =
      ⟨"entry", ctx.functions.length,
        (fnRA ctx module name args rt sel pub ent md).2.map Prod.snd, [], []⟩ := by
    unfold fnCtx5
    rw [blkOf_modifyBlk_self _ _ _ (by
      show (fnRB ctx module name rt sel pub ent md).2 <
        (fnRA ctx module name args rt sel pub ent md).1.blocks.length
      rw [sblocks', fnCtx3_blocks, fnRB_blocks_length, fnRB_snd]
      omega)]
    rw [blkOf_modifyFn, blkOf_of_blocks_eq sblocks',
      fnCtx3_blkOf_entry ctx module name rt sel pub ent md]
  rw [Function_new_eq]
  refine ⟨?_, ?_, ?_, ?_, ?_⟩
  · show ((fnCtx5 ctx module name args rt sel pub ent md).fnOf
      ctx.functions.length).arguments.length = args.length
    rw [hfn5]
    exact slen'
  · show ((fnCtx5 ctx module name args rt sel pub ent md).fnOf
      ctx.functions.length).blocks =
      [get_entry_block (fnCtx5 ctx module name args rt sel pub ent md)
        ctx.functions.length]
    rw [hblocks5, hentry]
  · show ((fnCtx5 ctx module name args rt sel pub ent md).blkOf
      (get_entry_block (fnCtx5 ctx module name args rt sel pub ent md)
        ctx.functions.length)).label = ("entry")
    rw [hentry, hblk5]
  · show ((fnCtx5 ctx module name args rt sel pub ent md).blkOf
      (get_entry_block (fnCtx5 ctx module name args rt sel pub ent md)
        ctx.functions.length)).args =
      ((fnCtx5 ctx module name args rt sel pub ent md).fnOf
        ctx.functions.length).arguments.map Prod.snd
    rw [hentry, hblk5, hfn5]
  · intro i hi
    obtain ⟨g1, g2⟩ := sat i hi
    rw [Nat.zero_add] at g2
    constructor
    · show ((fnCtx5 ctx module name args rt sel pub ent md).fnOf
        ctx.functions.length).arguments.getD i ("", 0) = _
      rw [hfn5]
      exact g1
    · show (fnCtx5 ctx module name args rt sel pub ent md).valOf
        (ctx.values.length + i) = _
      rw [hentry]
      exact g2

end SwayIR

namespace SwayIR

theorem cfgLoop_nil (ctx : Context) (entry : Nat) (vis : Finset Nat)
    (hw : ∀ b ∈ ([] : List Nat), b ∈ succUniverse ctx entry) :
    cfgLoop ctx entry [] vis hw = ([], vis) := by
  rw [cfgLoop.eq_def]

theorem cfgLoop_cons (ctx : Context) (entry n : Nat) (rest : List Nat)
    (vis : Finset Nat) (hw : ∀ b ∈ n :: rest, b ∈ succUniverse ctx entry)
    (hw' : ∀ b ∈ ((blockSuccs ctx n).filter
      (fun s => decide (s ∉ insert n vis))).reverse ++ rest,
      b ∈ succUniverse ctx entry) :
    cfgLoop ctx entry (n :: rest) vis hw =
      ((blockSuccs ctx n).map (fun s => (n, s)) ++
        (cfgLoop ctx entry (((blockSuccs ctx n).filter
          (fun s => decide (s ∉ insert n vis))).reverse ++ rest)
          (insert n vis) hw').1,
        (cfgLoop ctx entry (((blockSuccs ctx n).filter
          (fun s => decide (s ∉ insert n vis))).reverse ++ rest)
          (insert n vis) hw').2) := by
  rw [cfgLoop.eq_def]

end SwayIR

namespace SwayIR

/-- The traversal invariant of `dot_cfg`'s work-list loop: the final visited set
extends the initial one and swallows the work list; and every block that becomes
visited during the run has all its successors visited by the end and one emitted
edge per successor. -/
theorem cfgLoop_spec (ctx : Context) (entry : Nat) :
    ∀ (wl : List Nat) (vis : Finset Nat)
      (hw : ∀ b ∈ wl, b ∈ succUniverse ctx entry),
      vis ⊆ (cfgLoop ctx entry wl vis hw).2 ∧
      (∀ b ∈ wl, b ∈ (cfgLoop ctx entry wl vis hw).2) ∧
      (∀ x ∈ (cfgLoop ctx entry wl vis hw).2, x ∉ vis →
        ∀ s ∈ blockSuccs ctx x,
          s ∈ (cfgLoop ctx entry wl vis hw).2 ∧
          (x, s) ∈ (cfgLoop ctx entry wl vis hw).1) := by
  intro wl vis hw
  induction wl, vis, hw using cfgLoop.induct ctx entry with
  | case1 vis hw =>
    rw [cfgLoop_nil]
    refine ⟨fun a ha => ha, ?_, ?_⟩
    · intro b hb
      exact absurd hb (List.not_mem_nil b)
    · intro x hx hxv
      exact absurd hx hxv
  | case2 n rest vis hw vis2 pushed2 hw2 ih =>
    have hw' : ∀ b ∈ ((blockSuccs ctx n).filter
        (fun s => decide (s ∉ insert n vis))).reverse ++ rest,
        b ∈ succUniverse ctx entry := by
      intro b hb
      rcases List.mem_append.mp hb with h | h
      · exact blockSuccs_subset_universe ctx entry n b
          (List.mem_of_mem_filter (List.mem_reverse.mp h))
      · exact hw b (List.mem_cons_of_mem _ h)
    rw [cfgLoop_cons ctx entry n rest vis hw hw']
    obtain ⟨ih1, ih2, ih3⟩ := ih
    refine ⟨?_, ?_, ?_⟩
    · intro a ha
      exact ih1 (Finset.mem_insert_of_mem ha)
    · intro b hb
      rcases List.mem_cons.mp hb with h | h
      · rw [h]
        exact ih1 (Finset.mem_insert_self n vis)
      · exact ih2 b (List.mem_append_right _ h)
    · intro x hx hxv s hs
      by_cases hxn : x = n
      · subst hxn
        constructor
        · by_cases hsv : s ∈ insert x vis
          · exact ih1 hsv
          · refine ih2 s (List.mem_append_left _ ?_)
            rw [List.mem_reverse]
            exact List.mem_filter.mpr ⟨hs, decide_eq_true hsv⟩
        · exact List.mem_append_left _ (List.mem_map.mpr ⟨s, hs, rfl⟩)
      · have hxv' : x ∉ insert n vis := by
          rw [Finset.mem_insert]
          push_neg
          exact ⟨hxn, hxv⟩
        have hm := ih3 x hx hxv' s hs
        exact ⟨hm.1, List.mem_append_right _ hm.2⟩

end SwayIR

namespace SwayIR

/-- Control-flow reachability: `b` is reachable from `a` along successor edges. -/
def ReachCFG (ctx : Context) : Nat → Nat → Prop :=
  Relation.ReflTransGen (fun u v => v ∈ blockSuccs ctx u)

theorem string_append_assoc (a b c : String) : (a ++ b) ++ c = a ++ (b ++ c) := by
  obtain ⟨a⟩ := a
  obtain ⟨b⟩ := b
  obtain ⟨c⟩ := c
  apply String.ext
  exact List.append_assoc a b c

theorem string_empty_append (s : String) : "" ++ s = s := by
  obtain ⟨s⟩ := s
  apply String.ext
  rfl

theorem substringOf_append (a b : String) {needle s : String}
    (h : substringOf needle s) : substringOf needle (a ++ s ++ b) := by
  obtain ⟨l, r, hh⟩ := h
  refine ⟨a ++ l, r ++ b, ?_⟩
  rw [hh, ← string_append_assoc a (l ++ needle) r, ← string_append_assoc a l needle,
    string_append_assoc ((a ++ l) ++ needle) r b]

theorem substring_renderEdges (ctx : Context) {e : Nat × Nat} :
    ∀ {l : List (Nat × Nat)}, e ∈ l →
      substringOf (edgeLine ctx e) (renderEdges ctx l) := by
  intro l hl
  induction l with
  | nil => exact absurd hl (List.not_mem_nil e)
  | cons hd tl ih =>
    rcases List.mem_cons.mp hl with h | h
    · refine ⟨"", renderEdges ctx tl, ?_⟩
      rw [string_empty_append, ← h]
      rfl
    · obtain ⟨l', r', hh⟩ := ih h
      refine ⟨edgeLine ctx hd ++ l', r', ?_⟩
      show edgeLine ctx hd ++ renderEdges ctx tl = _
      rw [hh, ← string_append_assoc (edgeLine ctx hd) (l' ++ edgeLine ctx e) r',
        ← string_append_assoc (edgeLine ctx hd) l' (edgeLine ctx e)]

end SwayIR

namespace SwayIR

theorem reach_mem_cfgLoop (ctx : Context) (e : Nat)
    (hw0 : ∀ b ∈ [e], b ∈ succUniverse ctx e) :
    ∀ x, ReachCFG ctx e x → x ∈ (cfgLoop ctx e [e] ∅ hw0).2 := by
  intro x hreach
  induction hreach with
  | refl => exact (cfgLoop_spec ctx e [e] ∅ hw0).2.1 e (List.mem_singleton.mpr rfl)
  | tail hab hbc ih =>
    exact ((cfgLoop_spec ctx e [e] ∅ hw0).2.2 _ ih (Finset.not_mem_empty _)
      _ hbc).1

/-- The concrete control-flow graph exercising `dot_cfg`: block 0 branches to 2
and 3, 3 falls to 4, 4 loops back to 2, and 2 exits through 5; block 1 is
unreachable.  The edge 2 → 5 is emitted twice: once when 2 is first popped, and
again when the second queued copy of 2 is popped after 2 is already visited. -/
def ctxC9 : Context where
  functions := [⟨"main", [], 0, [0, 1, 2, 3, 4, 5], false, false, none, none,
    SMap.empty, 0⟩]
  blocks := [
    ⟨"entry", 0, [], [], [2, 3]⟩,
    ⟨"one", 0, [], [], []⟩,
    ⟨"two", 0, [], [], [5]⟩,
    ⟨"three", 0, [], [], [4]⟩,
    ⟨"four", 0, [], [], [2]⟩,
    ⟨"five", 0, [], [], []⟩]
  values := []
  local_vars := []
  modules := []

theorem hwC9a : ∀ b ∈ [0], b ∈ succUniverse ctxC9 0 := by decide
theorem hwC9b : ∀ b ∈ [3, 2], b ∈ succUniverse ctxC9 0 := by decide
theorem hwC9c : ∀ b ∈ [4, 2], b ∈ succUniverse ctxC9 0 := by decide
theorem hwC9d : ∀ b ∈ [2, 2], b ∈ succUniverse ctxC9 0 := by decide
theorem hwC9e : ∀ b ∈ [5, 2], b ∈ succUniverse ctxC9 0 := by decide
theorem hwC9f : ∀ b ∈ [2], b ∈ succUniverse ctxC9 0 := by decide
theorem hwC9g : ∀ b ∈ ([] : List Nat), b ∈ succUniverse ctxC9 0 := by decide

theorem cfgEdgesC9 :
    cfgEdges ctxC9 0 = [(0, 2), (0, 3), (3, 4), (4, 2), (2, 5), (2, 5)] := by
  have h0 : cfgEdges ctxC9 0 = (cfgLoop ctxC9 0 [0] ∅ hwC9a).1 := rfl
  have h1 : cfgLoop ctxC9 0 [0] ∅ hwC9a =
      ((0, 2) :: (0, 3) :: (cfgLoop ctxC9 0 [3, 2] (insert 0 ∅) hwC9b).1,
        (cfgLoop ctxC9 0 [3, 2] (insert 0 ∅) hwC9b).2) := by
    rw [cfgLoop_cons ctxC9 0 0 [] ∅ hwC9a (by decide)]
    rfl
  have h2 : cfgLoop ctxC9 0 [3, 2] (insert 0 ∅) hwC9b =
      ((3, 4) :: (cfgLoop ctxC9 0 [4, 2] (insert 3 (insert 0 ∅)) hwC9c).1,
        (cfgLoop ctxC9 0 [4, 2] (insert 3 (insert 0 ∅)) hwC9c).2) := by
    rw [cfgLoop_cons ctxC9 0 3 [2] (insert 0 ∅) hwC9b (by decide)]
    rfl
  have h3 : cfgLoop ctxC9 0 [4, 2] (insert 3 (insert 0 ∅)) hwC9c =
      ((4, 2) :: (cfgLoop ctxC9 0 [2, 2]
          (insert 4 (insert 3 (insert 0 ∅))) hwC9d).1,
        (cfgLoop ctxC9 0 [2, 2] (insert 4 (insert 3 (insert 0 ∅))) hwC9d).2) := by
    rw [cfgLoop_cons ctxC9 0 4 [2] (insert 3 (insert 0 ∅)) hwC9c (by decide)]
    rfl
  have h4 : cfgLoop ctxC9 0 [2, 2] (insert 4 (insert 3 (insert 0 ∅))) hwC9d =
      ((2, 5) :: (cfgLoop ctxC9 0 [5, 2]
          (insert 2 (insert 4 (insert 3 (insert 0 ∅)))) hwC9e).1,
        (cfgLoop ctxC9 0 [5, 2]
          (insert 2 (insert 4 (insert 3 (insert 0 ∅)))) hwC9e).2) := by
    rw [cfgLoop_cons ctxC9 0 2 [2] (insert 4 (insert 3 (insert 0 ∅))) hwC9d
      (by decide)]
    rfl
  have h5 : cfgLoop ctxC9 0 [5, 2]
      (insert 2 (insert 4 (insert 3 (insert 0 ∅)))) hwC9e =
      cfgLoop ctxC9 0 [2]
        (insert 5 (insert 2 (insert 4 (insert 3 (insert 0 ∅))))) hwC9f := by
    rw [cfgLoop_cons ctxC9 0 5 [2]
      (insert 2 (insert 4 (insert 3 (insert 0 ∅)))) hwC9e (by decide)]
    rfl
  have h6 : cfgLoop ctxC9 0 [2]
      (insert 5 (insert 2 (insert 4 (insert 3 (insert 0 ∅))))) hwC9f =
      ((2, 5) :: (cfgLoop ctxC9 0 []
          (insert 2 (insert 5 (insert 2 (insert 4 (insert 3 (insert 0 ∅))))))
          hwC9g).1,
        (cfgLoop ctxC9 0 []
          (insert 2 (insert 5 (insert 2 (insert 4 (insert 3 (insert 0 ∅))))))
          hwC9g).2) := by
    rw [cfgLoop_cons ctxC9 0 2 []
      (insert 5 (insert 2 (insert 4 (insert 3 (insert 0 ∅))))) hwC9f (by decide)]
    rfl
  have h7 : cfgLoop ctxC9 0 []
      (insert 2 (insert 5 (insert 2 (insert 4 (insert 3 (insert 0 ∅))))))
      hwC9g =
      ([], insert 2 (insert 5 (insert 2 (insert 4 (insert 3 (insert 0 ∅)))))) :=
    cfgLoop_nil ctxC9 0 _ hwC9g
  rw [h0, h1, h2, h3, h4, h5, h6, h7]

end SwayIR

namespace SwayIR

/-- Claim C9: `dot_cfg`'s work-list traversal starts from the entry block; each
time a block is popped it is marked visited, one edge is emitted per successor
(before the visited check), and exactly the successors not yet visited are
pushed (first conjunct: the loop's step equation).  Consequently every
control-flow edge whose source is reachable from the entry block appears at
least once among the emitted edges, and its rendered line occurs in the output
string (second conjunct); and an edge may appear more than once: on the concrete
graph `ctxC9` the edge 2 → 5 is emitted twice (third conjunct). -/
theorem C9_dot_cfg :
    (∀ (ctx : Context) (entry n : Nat) (rest : List Nat) (vis : Finset Nat)
      (hw : ∀ b ∈ n :: rest, b ∈ succUniverse ctx entry)
      (hw' : ∀ b ∈ ((blockSuccs ctx n).filter
        (fun s => decide (s ∉ insert n vis))).reverse ++ rest,
        b ∈ succUniverse ctx entry),
      cfgLoop ctx entry (n :: rest) vis hw =
        ((blockSuccs ctx n).map (fun s => (n, s)) ++
          (cfgLoop ctx entry (((blockSuccs ctx n).filter
            (fun s => decide (s ∉ insert n vis))).reverse ++ rest)
            (insert n vis) hw').1,
          (cfgLoop ctx entry (((blockSuccs ctx n).filter
            (fun s => decide (s ∉ insert n vis))).reverse ++ rest)
            (insert n vis) hw').2)) ∧
    (∀ (ctx : Context) (f x s : Nat),
      ReachCFG ctx (get_entry_block ctx f) x → s ∈ blockSuccs ctx x →
      (x, s) ∈ cfgEdges ctx f ∧
      substringOf (edgeLine ctx (x, s)) (dot_cfg ctx f)) ∧
    (cfgEdges ctxC9 0).count (2, 5) = 2 := by
  refine ⟨fun ctx entry n rest vis hw hw' =>
    cfgLoop_cons ctx entry n rest vis hw hw', ?_, ?_⟩
  · intro ctx f x s hreach hs
    have hw0 : ∀ b ∈ [get_entry_block ctx f],
        b ∈ succUniverse ctx (get_entry_block ctx f) := by
      intro b hb
      rw [List.mem_singleton] at hb
      rw [hb]
      exact Finset.mem_insert_self _ _
    have hx := reach_mem_cfgLoop ctx (get_entry_block ctx f) hw0 x hreach
    have hedge := ((cfgLoop_spec ctx (get_entry_block ctx f)
      [get_entry_block ctx f] ∅ hw0).2.2 x hx (Finset.not_mem_empty x) s hs).2
    refine ⟨hedge, ?_⟩
    show substringOf _ ("digraph " ++ (ctx.fnOf f).name ++ " \x7b\n" ++
      renderEdges ctx (cfgEdges ctx f) ++ "\x7d\n")
    exact substringOf_append _ _ (substring_renderEdges ctx hedge)
  · rw [cfgEdgesC9]
    rfl

end SwayIR
